import Mathlib

/-!
# Talent leaderboard: in-memory store, processing cycle and rebuild

A shallow embedding of `src/service.go`, `src/inmem.go`, `src/scorer.go` and the
counters of `src/metrics.go`.

* Go `int` values that carry scores, metric values and limits are `Int`;
  lengths, slice positions and ranks (always built from `len`) are `Nat`.
* A Go map is an association list holding each key at most once
  (`mapStore` overwrites in place or appends a new key).
* Methods with a pointer receiver take the store and return the new store
  next to their results; a run-time panic is `none`.
* The two pieces of Go run time whose result the language leaves open, the
  visiting order of `range` over a map and the algorithm behind `sort.Slice`,
  are fields of `GoRuntime`; `stdRuntime` is one executable choice.
-/

namespace Cuju

/-! ## Go primitives -/

/-- A Go `error` value: `none` is `nil`, `some msg` an error with that text. -/
abbrev GoError := Option String

/-- Two's complement wrap-around of a 64-bit signed `int`. -/
def wrapInt64 (z : Int) : Int := (z + 2 ^ 63) % 2 ^ 64 - 2 ^ 63

/-- The comma-ok read `v, ok := m[k]` of a Go map. -/
def mapLookup {κ ν : Type} [DecidableEq κ] : List (κ × ν) → κ → Option ν
  | [], _ => none
  | (k1, v1) :: m, k => if k1 = k then some v1 else mapLookup m k

/-- The plain read `m[k]` of a Go map: the zero value `z` when the key is absent. -/
def mapIndex {κ ν : Type} [DecidableEq κ] (z : ν) (m : List (κ × ν)) (k : κ) : ν :=
  (mapLookup m k).getD z

/-- The assignment `m[k] = v` of a Go map. -/
def mapStore {κ ν : Type} [DecidableEq κ] : List (κ × ν) → κ → ν → List (κ × ν)
  | [], k, v => [(k, v)]
  | (k1, v1) :: m, k, v => if k1 = k then (k1, v) :: m else (k1, v1) :: mapStore m k v

/-! ## Data model (`src/service.go`) -/

abbrev TalentID := String

abbrev Skill := String

def SkillDribble : Skill := "dribble"

def SkillShoot : Skill := "shoot"

def SkillPass : Skill := "pass"

def ErrTalentNotFound : String := "talent not found"

structure ScoreEvent where
  EventID : String
  TalentID : TalentID
  Skill : Skill
  MetricValue : Int
  Timestamp : Int
  deriving DecidableEq

/-- A score calculated for a talent for a specific skill. -/
structure TalentScore where
  TalentID : TalentID
  Skill : Skill
  Score : Int
  EventID : String
  deriving DecidableEq

/-- The zero value `TalentScore{}`. -/
def TalentScore.zero : TalentScore := ⟨"", "", 0, ""⟩

/-- A talent's rank in the leaderboard and the score that determined it. -/
structure TalentRank where
  TalentID : TalentID
  TalentScore : TalentScore
  Rank : Nat
  deriving DecidableEq

/-- The zero value `TalentRank{}`. -/
def TalentRank.zero : TalentRank := ⟨"", TalentScore.zero, 0⟩

/-- The `Scorer` interface. The first argument is the number of calls already
made in the current processing cycle, so that a scorer may answer differently
from call to call. -/
abbrev Scorer := Nat → Skill → Int → Except String Int

/-! ## Scorers (`src/scorer.go`) -/

/-- `WeightBasedScorer.CalculateScore`; the random delay has no effect on the result. -/
def WeightBasedScorer.CalculateScore (skillWeights : List (Skill × Int)) (skill : Skill)
    (metricValue : Int) : Except String Int :=
  match mapLookup skillWeights skill with
  | none => .error ("skill " ++ skill ++ " not found")
  | some weight => .ok (wrapInt64 (metricValue * weight))

def WeightBasedScorer (skillWeights : List (Skill × Int)) : Scorer :=
  fun _ skill metricValue => WeightBasedScorer.CalculateScore skillWeights skill metricValue

/-- `LinearScorer.CalculateScore`. -/
def LinearScorer.CalculateScore (_skill : Skill) (metricValue : Int) : Except String Int :=
  .ok metricValue

def LinearScorer : Scorer :=
  fun _ skill metricValue => LinearScorer.CalculateScore skill metricValue

/-! ## In-memory storage (`src/inmem.go`) -/

structure InMemStorage where
  scoreEvents : List ScoreEvent
  eventIDs : List (String × Bool)
  processedEvents : List (String × Bool)
  talentScores : List (TalentID × List TalentScore)
  leaderboard : List TalentRank
  talentLeaderboardIndex : List (TalentID × Nat)
  deriving DecidableEq

/-- `NewInMemStorage`: empty maps, an empty leaderboard and a nil index. The
refresh interval only sets how often `refreshLeaderboard` is run. -/
def NewInMemStorage : InMemStorage :=
  { scoreEvents := [], eventIDs := [], processedEvents := [], talentScores := [],
    leaderboard := [], talentLeaderboardIndex := [] }

/-- `InMemStorage.SaveScoreEvent`. -/
def SaveScoreEvent (s : InMemStorage) (event : ScoreEvent) : (Bool × GoError) × InMemStorage :=
  if mapIndex false s.eventIDs event.EventID then
    ((false, none), s)
  else
    ((true, none),
      { s with eventIDs := mapStore s.eventIDs event.EventID true,
               scoreEvents := s.scoreEvents ++ [event] })

/-- The `for ... range s.scoreEvents` loop of `ConsumeScoreEvents`, with its `break`. -/
def consumeLoop (processedEvents : List (String × Bool)) (limit : Int) :
    List ScoreEvent → List ScoreEvent → List ScoreEvent
  | [], unprocessed => unprocessed
  | event :: rest, unprocessed =>
    if !(mapIndex false processedEvents event.EventID) then
      if ((unprocessed ++ [event]).length : Int) ≥ limit then
        unprocessed ++ [event]
      else
        consumeLoop processedEvents limit rest (unprocessed ++ [event])
    else
      consumeLoop processedEvents limit rest unprocessed

/-- `InMemStorage.ConsumeScoreEvents`. -/
def ConsumeScoreEvents (s : InMemStorage) (limit : Int) :
    (List ScoreEvent × GoError) × InMemStorage :=
  ((consumeLoop s.processedEvents limit s.scoreEvents [], none), s)

/-- The loop of `MarkScoreEventsAsProcessed`. -/
def markLoop : List (String × Bool) → List ScoreEvent → List (String × Bool)
  | processedEvents, [] => processedEvents
  | processedEvents, event :: rest => markLoop (mapStore processedEvents event.EventID true) rest

/-- `InMemStorage.MarkScoreEventsAsProcessed`. -/
def MarkScoreEventsAsProcessed (s : InMemStorage) (events : List ScoreEvent) :
    GoError × InMemStorage :=
  (none, { s with processedEvents := markLoop s.processedEvents events })

/-- `InMemStorage.SaveTalentScore`. -/
def SaveTalentScore (s : InMemStorage) (talentScore : TalentScore) : GoError × InMemStorage :=
  let scores := mapIndex [] s.talentScores talentScore.TalentID ++ [talentScore]
  (none, { s with talentScores := mapStore s.talentScores talentScore.TalentID scores })

/-- `InMemStorage.FindTalentRank`; `none` is the index-out-of-range panic of
`s.leaderboard[leaderboardIndex]`. -/
def FindTalentRank (s : InMemStorage) (talentID : TalentID) :
    Option ((TalentRank × Bool × GoError) × InMemStorage) :=
  match mapLookup s.talentLeaderboardIndex talentID with
  | none => some ((TalentRank.zero, false, none), s)
  | some leaderboardIndex =>
    match s.leaderboard[leaderboardIndex]? with
    | none => none
    | some talentRank => some ((talentRank, true, none), s)

/-- `InMemStorage.GetTopRankedTalents`; `none` is the panic of `make` with a
negative length. -/
def GetTopRankedTalents (s : InMemStorage) (limit : Int) :
    Option ((List TalentRank × GoError) × InMemStorage) :=
  let limit := if limit > (s.leaderboard.length : Int) then (s.leaderboard.length : Int) else limit
  if limit < 0 then none
  else some ((s.leaderboard.take limit.toNat, none), s)

/-- The run-time choices Go leaves open in `refreshLeaderboard`. -/
structure GoRuntime where
  /-- The order in which `range` visits the entries of the score map. -/
  rangeMap : List (TalentID × List TalentScore) → List (TalentID × List TalentScore)
  /-- The call `sort.Slice(x, less)`. -/
  sortSlice : (TalentRank → TalentRank → Bool) → List TalentRank → List TalentRank

/-- The inner loop of `refreshLeaderboard`: the running best score of one talent. -/
def bestLoop : TalentScore → List TalentScore → TalentScore
  | bestTalentScore, [] => bestTalentScore
  | bestTalentScore, score :: rest =>
    if score.Score > bestTalentScore.Score then bestLoop score rest
    else bestLoop bestTalentScore rest

/-- The outer loop of `refreshLeaderboard` over the entries of the score map. -/
def collectLoop : List TalentRank → List (TalentID × List TalentScore) → List TalentRank
  | newLeaderboard, [] => newLeaderboard
  | newLeaderboard, (_, scores) :: rest =>
    let bestTalentScore := bestLoop TalentScore.zero scores
    if bestTalentScore.Score = 0 then
      collectLoop newLeaderboard rest
    else
      collectLoop
        (newLeaderboard ++
          [{ TalentID := bestTalentScore.TalentID, TalentScore := bestTalentScore,
             Rank := newLeaderboard.length + 1 }])
        rest

/-- The comparison passed to `sort.Slice`. -/
def lessByScore (a b : TalentRank) : Bool := a.TalentScore.Score > b.TalentScore.Score

/-- The last loop of `refreshLeaderboard`: set each rank and fill the index. -/
def rankLoop : Nat → List TalentRank → List (TalentID × Nat) →
    List TalentRank × List (TalentID × Nat)
  | _, [], index => ([], index)
  | leaderboardIndex, talentRank :: rest, index =>
    let talentRank := { talentRank with Rank := leaderboardIndex + 1 }
    let r := rankLoop (leaderboardIndex + 1) rest (mapStore index talentRank.TalentID leaderboardIndex)
    (talentRank :: r.1, r.2)

/-- `InMemStorage.refreshLeaderboard`. -/
def refreshLeaderboard (rt : GoRuntime) (s : InMemStorage) : InMemStorage :=
  let newLeaderboard := collectLoop [] (rt.rangeMap s.talentScores)
  let newLeaderboard := rt.sortSlice lessByScore newLeaderboard
  let r := rankLoop 0 newLeaderboard []
  { s with leaderboard := r.1, talentLeaderboardIndex := r.2 }

/-! ## Service (`src/service.go`, counters of `src/metrics.go`) -/

/-- What a `Service` over an `InMemStorage` can change: the store and the two
global counters. -/
structure World where
  storage : InMemStorage
  ScoreEventsTotal : Nat
  ScoreEventsDuplicates : Nat
  deriving DecidableEq

/-- `NewService(NewInMemStorage(..), scorer)` at program start. -/
def NewService : World :=
  { storage := NewInMemStorage, ScoreEventsTotal := 0, ScoreEventsDuplicates := 0 }

def IncScoreEventsTotal (w : World) : World :=
  { w with ScoreEventsTotal := (w.ScoreEventsTotal + 1) % 2 ^ 64 }

def IncScoreEventsDuplicate (w : World) : World :=
  { w with ScoreEventsDuplicates := (w.ScoreEventsDuplicates + 1) % 2 ^ 64 }

/-- `Service.SaveScoreEvent`. -/
def Service.SaveScoreEvent (w : World) (event : ScoreEvent) : (Bool × GoError) × World :=
  let w := IncScoreEventsTotal w
  let r := Cuju.SaveScoreEvent w.storage event
  let w := { w with storage := r.2 }
  match r.1.2 with
  | some err => ((false, some err), w)
  | none =>
    let w := if !r.1.1 then IncScoreEventsDuplicate w else w
    ((r.1.1, none), w)

/-- `Service.GetTopTalents`. -/
def Service.GetTopTalents (w : World) (limit : Int) : Option ((List TalentRank × GoError) × World) :=
  match GetTopRankedTalents w.storage limit with
  | none => none
  | some ((talentRanks, err), st) =>
    match err with
    | some e => some (([], some e), { w with storage := st })
    | none => some ((talentRanks, none), { w with storage := st })

/-- `Service.GetTalentRank`. -/
def Service.GetTalentRank (w : World) (talentID : TalentID) :
    Option ((TalentRank × GoError) × World) :=
  match FindTalentRank w.storage talentID with
  | none => none
  | some ((talentRank, found, err), st) =>
    match err with
    | some e => some ((TalentRank.zero, some e), { w with storage := st })
    | none =>
      if !found then some ((TalentRank.zero, some ErrTalentNotFound), { w with storage := st })
      else some ((talentRank, none), { w with storage := st })

/-- The `for _, event := range events` loop of `ProcessScoreEvents`: `calls` counts
the scorer calls made so far in this cycle. -/
def scoreLoop (scorer : Scorer) : Nat → List ScoreEvent → List ScoreEvent → InMemStorage →
    List ScoreEvent × InMemStorage
  | _, [], processedEvents, s => (processedEvents, s)
  | calls, event :: rest, processedEvents, s =>
    match scorer calls event.Skill event.MetricValue with
    | .error _ => scoreLoop scorer (calls + 1) rest processedEvents s
    | .ok score =>
      let talentScore : TalentScore :=
        { TalentID := event.TalentID, Skill := event.Skill, Score := score,
          EventID := event.EventID }
      let r := SaveTalentScore s talentScore
      match r.1 with
      | some _ => scoreLoop scorer (calls + 1) rest processedEvents r.2
      | none => scoreLoop scorer (calls + 1) rest (processedEvents ++ [event]) r.2

/-- One iteration of the `for` loop of `Service.ProcessScoreEvents`. -/
def processCycle (scorer : Scorer) (limit : Int) (s : InMemStorage) : InMemStorage :=
  let r := ConsumeScoreEvents s limit
  match r.1.2 with
  | some _ => r.2
  | none =>
    let p := scoreLoop scorer 0 r.1.1 [] r.2
    if p.1.length > 0 then (MarkScoreEventsAsProcessed p.2 p.1).2 else p.2

/-- One iteration of the loop of `Service.ProcessScoreEvents`, on the world. -/
def Service.processCycle (scorer : Scorer) (limit : Int) (w : World) : World :=
  { w with storage := Cuju.processCycle scorer limit w.storage }

/-! ## Run-time contract and reachable states -/

/-- What Go promises of the two run-time choices: `range` over a map visits
every entry exactly once, and `sort.Slice` with the comparison `lessByScore`
rearranges the slice so that no later element is less than an earlier one. -/
def GoRuntime.Valid (rt : GoRuntime) : Prop :=
  (∀ m, (rt.rangeMap m).Perm m) ∧
  (∀ l, (rt.sortSlice lessByScore l).Perm l) ∧
  (∀ l, (rt.sortSlice lessByScore l).Pairwise (fun a b => lessByScore b a = false))

/-- One executable run time: the map is visited in insertion order and the
slice is sorted by insertion sort (what `sort.Slice` runs on short slices). -/
def stdRuntime : GoRuntime :=
  { rangeMap := fun m => m,
    sortSlice := fun less l => List.insertionSort (fun a b => less b a = false) l }

/-- Stores reachable from `NewInMemStorage` through the methods of the store
and the periodic `refreshLeaderboard`. -/
inductive StorageReachable : InMemStorage → Prop
  | init : StorageReachable NewInMemStorage
  | saveScoreEvent (s : InMemStorage) (event : ScoreEvent) :
      StorageReachable s → StorageReachable (SaveScoreEvent s event).2
  | consumeScoreEvents (s : InMemStorage) (limit : Int) :
      StorageReachable s → StorageReachable (ConsumeScoreEvents s limit).2
  | markScoreEventsAsProcessed (s : InMemStorage) (events : List ScoreEvent) :
      StorageReachable s → StorageReachable (MarkScoreEventsAsProcessed s events).2
  | saveTalentScore (s : InMemStorage) (talentScore : TalentScore) :
      StorageReachable s → StorageReachable (SaveTalentScore s talentScore).2
  | refreshLeaderboard (rt : GoRuntime) (s : InMemStorage) :
      rt.Valid → StorageReachable s → StorageReachable (refreshLeaderboard rt s)

/-- Worlds reachable from program start through `Service.SaveScoreEvent`,
processing cycles with any scorer and any limit, and leaderboard rebuilds. -/
inductive ServiceReachable : World → Prop
  | init : ServiceReachable NewService
  | saveScoreEvent (w : World) (event : ScoreEvent) :
      ServiceReachable w → ServiceReachable (Service.SaveScoreEvent w event).2
  | processCycle (scorer : Scorer) (limit : Int) (w : World) :
      ServiceReachable w → ServiceReachable (Service.processCycle scorer limit w)
  | refreshLeaderboard (rt : GoRuntime) (w : World) :
      rt.Valid → ServiceReachable w →
      ServiceReachable { w with storage := Cuju.refreshLeaderboard rt w.storage }

/-- All score records of the store, talent by talent. -/
def allScores (s : InMemStorage) : List TalentScore :=
  (s.talentScores.map Prod.snd).flatten

/-- The score records stored for one talent. -/
def scoresOf (s : InMemStorage) (talentID : TalentID) : List TalentScore :=
  mapIndex [] s.talentScores talentID

/-- The entry a talent's score list contributes to the new leaderboard, if any:
the result of the inner loop of `refreshLeaderboard` unless its score is 0. -/
def rankedBest (scores : List TalentScore) : Option TalentScore :=
  if (bestLoop TalentScore.zero scores).Score = 0 then none
  else some (bestLoop TalentScore.zero scores)

/-- The value `m` is the maximum score value among the records `scores`. -/
def IsMaxScore (scores : List TalentScore) (m : Int) : Prop :=
  (∃ x ∈ scores, x.Score = m) ∧ ∀ x ∈ scores, x.Score ≤ m

/-- Every key of the score map occurs once and holds only records of that talent. -/
def ScoresKeyed (m : List (TalentID × List TalentScore)) : Prop :=
  (m.map Prod.fst).Nodup ∧ ∀ p ∈ m, ∀ x ∈ p.2, x.TalentID = p.1

/-- The index and the sequence agree. -/
def IndexAgrees (s : InMemStorage) : Prop :=
  ∀ (t : TalentID) (i : Nat),
    mapLookup s.talentLeaderboardIndex t = some i ↔
      ∃ e, s.leaderboard[i]? = some e ∧ e.TalentID = t

/-- The `TalentScore` the processing loop builds from an event and its score. -/
def toTalentScore (p : ScoreEvent × Int) : TalentScore :=
  { TalentID := p.1.TalentID, Skill := p.1.Skill, Score := p.2, EventID := p.1.EventID }

/-- The events of a batch on which the scorer succeeds, each with the value it
returned; `calls` is the number of scorer calls made before the batch. -/
def scoredEvents (scorer : Scorer) : Nat → List ScoreEvent → List (ScoreEvent × Int)
  | _, [] => []
  | calls, event :: rest =>
    match scorer calls event.Skill event.MetricValue with
    | .error _ => scoredEvents scorer (calls + 1) rest
    | .ok score => (event, score) :: scoredEvents scorer (calls + 1) rest

/-- `SaveTalentScore` called on each record of a list, in order. -/
def saveAll (s : InMemStorage) : List TalentScore → InMemStorage
  | [] => s
  | x :: rest => saveAll (SaveTalentScore s x).2 rest

/-- How many score records of the store carry the event id `id`. -/
def scoreCount (s : InMemStorage) (id : String) : Nat :=
  ((allScores s).map (fun x => x.EventID)).count id

/-- The score records the scorer's answers give talent `t` when `events` is
scored as one batch: one record per event of `t` on which the scorer succeeds,
in the order of the events. -/
def computedScores (scorer : Scorer) (events : List ScoreEvent) (t : TalentID) :
    List TalentScore :=
  ((scoredEvents scorer 0 events).map toTalentScore).filter (fun x => x.TalentID = t)

/-- The events of the log that are not marked processed, in log order. -/
def unprocessedOf (s : InMemStorage) : List ScoreEvent :=
  s.scoreEvents.filter (fun e => !(mapIndex false s.processedEvents e.EventID))

/-- The first `n` iterations of the loop of `Service.ProcessScoreEvents`, the
scorer answering the same way in every cycle. -/
def processCycles (scorer : Scorer) (limit : Int) : Nat → InMemStorage → InMemStorage
  | 0, s => s
  | n + 1, s => processCycles scorer limit n (processCycle scorer limit s)

/-- `Service.SaveScoreEvent` called on each event of a list, in order. -/
def submitAll (w : World) : List ScoreEvent → World
  | [] => w
  | event :: rest => submitAll (Service.SaveScoreEvent w event).2 rest

/-- Submit `events` to a fresh service, run one processing cycle, then one
`refreshLeaderboard`. -/
def endToEnd (rt : GoRuntime) (scorer : Scorer) (limit : Int) (events : List ScoreEvent) :
    World :=
  { storage :=
      refreshLeaderboard rt
        (Service.processCycle scorer limit (submitAll NewService events)).storage,
    ScoreEventsTotal :=
      (Service.processCycle scorer limit (submitAll NewService events)).ScoreEventsTotal,
    ScoreEventsDuplicates :=
      (Service.processCycle scorer limit (submitAll NewService events)).ScoreEventsDuplicates }

/-! ## Example data -/

/-- The six events of the repository's ranking test. -/
def testEvents : List ScoreEvent :=
  [ ⟨"event-1", "talent-1", SkillDribble, 50, 0⟩, ⟨"event-2", "talent-1", SkillShoot, 80, 0⟩,
    ⟨"event-3", "talent-2", SkillPass, 60, 0⟩, ⟨"event-4", "talent-2", SkillDribble, 40, 0⟩,
    ⟨"event-5", "talent-3", SkillShoot, 30, 0⟩, ⟨"event-6", "talent-3", SkillPass, 70, 0⟩ ]

/-- The test's events submitted and processed in one cycle, before any rebuild. -/
def testProcessed : World :=
  Service.processCycle LinearScorer 10 (submitAll NewService testEvents)

/-- The world of the ranking test after one rebuild. -/
def testWorld : World :=
  { testProcessed with storage := refreshLeaderboard stdRuntime testProcessed.storage }

/-- The weights `main` gives the `WeightBasedScorer`. -/
def mainWeights : List (Skill × Int) := [(SkillDribble, 1), (SkillShoot, 2), (SkillPass, 3)]

/-- The same event id submitted twice with different payloads, around two
processing cycles and a rebuild. -/
def duplicateWorld : World :=
  let w := (Service.SaveScoreEvent NewService ⟨"event-1", "talent-1", SkillDribble, 50, 0⟩).2
  let w := (Service.SaveScoreEvent w ⟨"event-1", "talent-2", SkillShoot, 99, 7⟩).2
  let w := Service.processCycle LinearScorer 10 w
  let w := (Service.SaveScoreEvent w ⟨"event-1", "talent-3", SkillPass, 70, 9⟩).2
  let w := Service.processCycle LinearScorer 10 w
  { w with storage := refreshLeaderboard stdRuntime w.storage }

/-- The six test events submitted, none processed yet. -/
def testSubmitted : InMemStorage := (submitAll NewService testEvents).storage

/-- A store holding one submitted, unprocessed event. -/
def pendingStore : InMemStorage :=
  (SaveScoreEvent NewInMemStorage ⟨"event-1", "talent-1", SkillDribble, 50, 0⟩).2

/-- The id `event-1` marked processed on a fresh store, before any event with
that id was submitted, and an event with that id submitted afterwards. -/
def premarkedStore : InMemStorage :=
  (SaveScoreEvent
    (MarkScoreEventsAsProcessed NewInMemStorage
      [⟨"event-1", "talent-1", SkillDribble, 50, 0⟩]).2
    ⟨"event-1", "talent-1", SkillDribble, 50, 0⟩).2

/-- Three events, the second with a skill that the scorer of `main` does not
know, so that scoring it fails. -/
def mixedEvents : List ScoreEvent :=
  [ ⟨"event-1", "talent-1", SkillDribble, 50, 0⟩, ⟨"event-2", "talent-1", "juggle", 80, 0⟩,
    ⟨"event-3", "talent-2", SkillPass, 60, 0⟩ ]

/-- The events of `mixedEvents` submitted, none processed yet. -/
def mixedSubmitted : InMemStorage := (submitAll NewService mixedEvents).storage

/-- A talent whose two best records tie at 80, with a lower record between. -/
def tiedStore : InMemStorage :=
  saveAll NewInMemStorage
    [ ⟨"talent-1", SkillDribble, 80, "event-1"⟩, ⟨"talent-1", SkillPass, 30, "event-2"⟩,
      ⟨"talent-1", SkillShoot, 80, "event-3"⟩ ]

/-- Two submitted events: the first has a skill the scorer of `main` does not
know, the second a known one. -/
def blockedWorld : World :=
  submitAll NewService
    [ ⟨"event-1", "talent-1", "juggle", 80, 0⟩, ⟨"event-2", "talent-2", SkillDribble, 50, 0⟩ ]

/-- One event with a negative metric value, submitted and processed by the
scorer of `main`. -/
def negativeProcessed : World :=
  Service.processCycle (WeightBasedScorer mainWeights) 100
    (Service.SaveScoreEvent NewService ⟨"event-1", "talent-1", SkillDribble, -5, 0⟩).2

/-! ## Theorems -/

/-! ### Go maps -/

theorem mapLookup_mapStore {κ ν : Type} [DecidableEq κ] (m : List (κ × ν)) (k k2 : κ) (v : ν) :
    mapLookup (mapStore m k v) k2 = if k = k2 then some v else mapLookup m k2 := by
  induction m with
  | nil => simp [mapStore, mapLookup]
  | cons p m ih =>
    obtain ⟨k1, v1⟩ := p
    by_cases h1 : k1 = k
    · subst h1
      by_cases h2 : k1 = k2 <;> simp [mapStore, mapLookup, h2]
    · by_cases h2 : k1 = k2
      · subst h2
        have h3 : ¬ k = k1 := fun h => h1 h.symm
        simp [mapStore, mapLookup, h1, h3]
      · simp [mapStore, mapLookup, h1, h2, ih]

theorem mapIndex_mapStore {κ ν : Type} [DecidableEq κ] (z : ν) (m : List (κ × ν)) (k k2 : κ)
    (v : ν) : mapIndex z (mapStore m k v) k2 = if k = k2 then v else mapIndex z m k2 := by
  unfold mapIndex
  rw [mapLookup_mapStore]
  split <;> rfl

theorem mem_mapStore {κ ν : Type} [DecidableEq κ] (m : List (κ × ν)) (k : κ) (v : ν)
    (p : κ × ν) (h : p ∈ mapStore m k v) : p = (k, v) ∨ p ∈ m := by
  induction m with
  | nil => simpa [mapStore] using h
  | cons q m ih =>
    obtain ⟨k1, v1⟩ := q
    by_cases h1 : k1 = k
    · subst h1
      simp only [mapStore, if_true, List.mem_cons] at h
      rcases h with h | h
      · exact Or.inl h
      · exact Or.inr (List.mem_cons_of_mem _ h)
    · simp only [mapStore, h1, if_false, List.mem_cons] at h
      rcases h with h | h
      · exact Or.inr (h ▸ List.mem_cons_self _ _)
      · rcases ih h with h | h
        · exact Or.inl h
        · exact Or.inr (List.mem_cons_of_mem _ h)

theorem mapStore_keys {κ ν : Type} [DecidableEq κ] (m : List (κ × ν)) (k : κ) (v : ν) :
    (mapStore m k v).map Prod.fst =
      if k ∈ m.map Prod.fst then m.map Prod.fst else m.map Prod.fst ++ [k] := by
  induction m with
  | nil => simp [mapStore]
  | cons q m ih =>
    obtain ⟨k1, v1⟩ := q
    by_cases h1 : k1 = k
    · subst h1
      simp [mapStore]
    · have h2 : ¬ k = k1 := fun h => h1 h.symm
      simp only [mapStore, h1, if_false, List.map_cons, ih, List.mem_cons, h2, false_or]
      split <;> simp

theorem mapStore_keys_nodup {κ ν : Type} [DecidableEq κ] (m : List (κ × ν)) (k : κ) (v : ν)
    (h : (m.map Prod.fst).Nodup) : ((mapStore m k v).map Prod.fst).Nodup := by
  rw [mapStore_keys]
  split
  · exact h
  · rename_i hk
    exact List.Nodup.append h (List.nodup_singleton k) (by
      intro a ha hb
      simp only [List.mem_singleton] at hb
      subst hb
      exact hk ha)

theorem mapLookup_mem {κ ν : Type} [DecidableEq κ] (m : List (κ × ν)) (k : κ) (v : ν)
    (h : mapLookup m k = some v) : (k, v) ∈ m := by
  induction m with
  | nil => simp [mapLookup] at h
  | cons q m ih =>
    obtain ⟨k1, v1⟩ := q
    by_cases h1 : k1 = k
    · subst h1
      simp only [mapLookup, if_true, Option.some.injEq] at h
      subst h
      exact List.mem_cons_self _ _
    · simp only [mapLookup, h1, if_false] at h
      exact List.mem_cons_of_mem _ (ih h)

theorem mem_mapLookup {κ ν : Type} [DecidableEq κ] (m : List (κ × ν)) (k : κ) (v : ν)
    (hnd : (m.map Prod.fst).Nodup) (h : (k, v) ∈ m) : mapLookup m k = some v := by
  induction m with
  | nil => simp at h
  | cons q m ih =>
    obtain ⟨k1, v1⟩ := q
    simp only [List.map_cons, List.nodup_cons] at hnd
    rcases List.mem_cons.1 h with h | h
    · cases h
      simp [mapLookup]
    · have h1 : ¬ k1 = k := by
        intro e
        subst e
        exact hnd.1 (List.mem_map.2 ⟨(k1, v), h, rfl⟩)
      simp only [mapLookup, h1, if_false]
      exact ih hnd.2 h

theorem mapLookup_none {κ ν : Type} [DecidableEq κ] (m : List (κ × ν)) (k : κ)
    (h : k ∉ m.map Prod.fst) : mapLookup m k = none := by
  cases hl : mapLookup m k with
  | none => rfl
  | some v => exact absurd (List.mem_map.2 ⟨(k, v), mapLookup_mem m k v hl, rfl⟩) h

/-! ### C1 -/

/-- C1. `SaveScoreEvent`, on the store and through the service: when the
event's id is already in the dedup set the call returns `(false, nil)` and the
whole store (event log, dedup set, processed set) is unchanged, whatever the
payload of the event; otherwise it returns `(true, nil)` and the new event log
is the old one with the event appended at the end. -/
theorem SaveScoreEvent_duplicate_or_append (w : World) (event : ScoreEvent) :
    (mapIndex false w.storage.eventIDs event.EventID = true →
      (SaveScoreEvent w.storage event).1 = (false, none) ∧
      (SaveScoreEvent w.storage event).2 = w.storage ∧
      (Service.SaveScoreEvent w event).1 = (false, none) ∧
      (Service.SaveScoreEvent w event).2.storage = w.storage) ∧
    (mapIndex false w.storage.eventIDs event.EventID = false →
      (SaveScoreEvent w.storage event).1 = (true, none) ∧
      (SaveScoreEvent w.storage event).2.scoreEvents = w.storage.scoreEvents ++ [event] ∧
      (SaveScoreEvent w.storage event).2.processedEvents = w.storage.processedEvents ∧
      mapIndex false (SaveScoreEvent w.storage event).2.eventIDs event.EventID = true ∧
      (Service.SaveScoreEvent w event).1 = (true, none) ∧
      (Service.SaveScoreEvent w event).2.storage = (SaveScoreEvent w.storage event).2) := by
  constructor
  · intro h
    simp [Service.SaveScoreEvent, SaveScoreEvent, IncScoreEventsTotal, IncScoreEventsDuplicate, h]
  · intro h
    simp [Service.SaveScoreEvent, SaveScoreEvent, IncScoreEventsTotal, IncScoreEventsDuplicate, h,
      mapIndex_mapStore]

/-! ### The loops of `refreshLeaderboard` -/

theorem bestLoop_spec (b : TalentScore) (l : List TalentScore) :
    (bestLoop b l = b ∨ bestLoop b l ∈ l) ∧ b.Score ≤ (bestLoop b l).Score ∧
      ∀ x ∈ l, x.Score ≤ (bestLoop b l).Score := by
  induction l generalizing b with
  | nil => simp [bestLoop]
  | cons x l ih =>
    by_cases h : x.Score > b.Score
    · obtain ⟨h1, h2, h3⟩ := ih x
      simp only [bestLoop, h, if_true]
      refine ⟨Or.inr ?_, by omega, ?_⟩
      · rcases h1 with h1 | h1
        · rw [h1]; exact List.mem_cons_self _ _
        · exact List.mem_cons_of_mem _ h1
      · intro y hy
        rcases List.mem_cons.1 hy with rfl | hy
        · exact h2
        · exact h3 y hy
    · obtain ⟨h1, h2, h3⟩ := ih b
      simp only [bestLoop, h, if_false]
      refine ⟨?_, h2, ?_⟩
      · rcases h1 with h1 | h1
        · exact Or.inl h1
        · exact Or.inr (List.mem_cons_of_mem _ h1)
      · intro y hy
        rcases List.mem_cons.1 hy with rfl | hy
        · omega
        · exact h3 y hy

theorem rankedBest_some {scores : List TalentScore} {b : TalentScore}
    (h : rankedBest scores = some b) :
    b ∈ scores ∧ 0 < b.Score ∧ ∀ x ∈ scores, x.Score ≤ b.Score := by
  unfold rankedBest at h
  obtain ⟨h1, h2, h3⟩ := bestLoop_spec TalentScore.zero scores
  split at h
  · cases h
  · rename_i hne
    injection h with h
    subst h
    have hz : TalentScore.zero.Score = 0 := rfl
    refine ⟨?_, by omega, h3⟩
    rcases h1 with h1 | h1
    · rw [h1] at hne; exact absurd hz hne
    · exact h1

theorem rankedBest_none {scores : List TalentScore} (h : rankedBest scores = none) :
    ∀ x ∈ scores, x.Score ≤ 0 := by
  unfold rankedBest at h
  obtain ⟨_, _, h3⟩ := bestLoop_spec TalentScore.zero scores
  split at h
  · rename_i h0
    intro x hx
    have := h3 x hx
    omega
  · cases h

theorem rankedBest_isSome_iff (scores : List TalentScore) :
    (∃ b, rankedBest scores = some b) ↔ ∃ x ∈ scores, 0 < x.Score := by
  constructor
  · rintro ⟨b, hb⟩
    exact ⟨b, (rankedBest_some hb).1, (rankedBest_some hb).2.1⟩
  · rintro ⟨x, hx, hpos⟩
    cases h : rankedBest scores with
    | some b => exact ⟨b, rfl⟩
    | none =>
      have := rankedBest_none h x hx
      omega

theorem collectLoop_scores (acc : List TalentRank) (m : List (TalentID × List TalentScore)) :
    (collectLoop acc m).map (fun r => r.TalentScore) =
      acc.map (fun r => r.TalentScore) ++ m.filterMap (fun p => rankedBest p.2) := by
  induction m generalizing acc with
  | nil => simp [collectLoop]
  | cons p m ih =>
    obtain ⟨k, scores⟩ := p
    by_cases h : (bestLoop TalentScore.zero scores).Score = 0
    · simp [collectLoop, h, ih, rankedBest]
    · simp [collectLoop, h, ih, rankedBest]

theorem collectLoop_talentID (acc : List TalentRank) (m : List (TalentID × List TalentScore))
    (hacc : ∀ r ∈ acc, r.TalentID = r.TalentScore.TalentID) :
    ∀ r ∈ collectLoop acc m, r.TalentID = r.TalentScore.TalentID := by
  induction m generalizing acc with
  | nil => simpa [collectLoop] using hacc
  | cons p m ih =>
    obtain ⟨k, scores⟩ := p
    by_cases h : (bestLoop TalentScore.zero scores).Score = 0
    · simp only [collectLoop, h, if_true]
      exact ih acc hacc
    · simp only [collectLoop, h, if_false]
      apply ih
      intro r hr
      rcases List.mem_append.1 hr with hr | hr
      · exact hacc r hr
      · simp only [List.mem_singleton] at hr
        subst hr
        rfl

theorem rankLoop_getElem? (i : Nat) (l : List TalentRank) (index : List (TalentID × Nat))
    (j : Nat) :
    (rankLoop i l index).1[j]? = (l[j]?).map (fun r => { r with Rank := i + j + 1 }) := by
  induction l generalizing i index j with
  | nil => simp [rankLoop]
  | cons x l ih =>
    cases j with
    | zero => simp [rankLoop]
    | succ j =>
      simp only [rankLoop, List.getElem?_cons_succ]
      rw [ih]
      congr 1
      funext r
      congr 1
      omega

theorem rankLoop_length (i : Nat) (l : List TalentRank) (index : List (TalentID × Nat)) :
    (rankLoop i l index).1.length = l.length := by
  induction l generalizing i index with
  | nil => simp [rankLoop]
  | cons x l ih => simp [rankLoop, ih]

theorem rankLoop_index_not_mem (i : Nat) (l : List TalentRank) (index : List (TalentID × Nat))
    (t : TalentID) (h : t ∉ l.map (fun r => r.TalentID)) :
    mapLookup (rankLoop i l index).2 t = mapLookup index t := by
  induction l generalizing i index with
  | nil => simp [rankLoop]
  | cons x l ih =>
    simp only [List.map_cons, List.mem_cons, not_or] at h
    simp only [rankLoop]
    rw [ih _ _ h.2, mapLookup_mapStore]
    have : ¬ x.TalentID = t := fun e => h.1 e.symm
    simp [this]

theorem rankLoop_index_mem (i : Nat) (l : List TalentRank) (index : List (TalentID × Nat))
    (hnd : (l.map (fun r => r.TalentID)).Nodup) (j : Nat) (e : TalentRank)
    (hj : l[j]? = some e) :
    mapLookup (rankLoop i l index).2 e.TalentID = some (i + j) := by
  induction l generalizing i index j with
  | nil => simp at hj
  | cons x l ih =>
    simp only [List.map_cons, List.nodup_cons] at hnd
    cases j with
    | zero =>
      simp only [List.getElem?_cons_zero, Option.some.injEq] at hj
      subst hj
      simp only [rankLoop]
      rw [rankLoop_index_not_mem _ _ _ _ hnd.1, mapLookup_mapStore]
      simp
    | succ j =>
      simp only [List.getElem?_cons_succ] at hj
      simp only [rankLoop]
      rw [ih _ _ hnd.2 j hj]
      congr 1
      omega

theorem rankLoop_map (i : Nat) (l : List TalentRank) (index : List (TalentID × Nat)) :
    (rankLoop i l index).1.map (fun r => (r.TalentID, r.TalentScore)) =
      l.map (fun r => (r.TalentID, r.TalentScore)) := by
  induction l generalizing i index with
  | nil => simp [rankLoop]
  | cons x l ih => simp [rankLoop, ih]

theorem rankLoop_map_score (i : Nat) (l : List TalentRank) (index : List (TalentID × Nat)) :
    (rankLoop i l index).1.map (fun r => r.TalentScore) = l.map (fun r => r.TalentScore) := by
  have h := congrArg (List.map Prod.snd) (rankLoop_map i l index)
  simpa [List.map_map, Function.comp_def] using h

theorem rankLoop_map_talentID (i : Nat) (l : List TalentRank) (index : List (TalentID × Nat)) :
    (rankLoop i l index).1.map (fun r => r.TalentID) = l.map (fun r => r.TalentID) := by
  have h := congrArg (List.map Prod.fst) (rankLoop_map i l index)
  simpa [List.map_map, Function.comp_def] using h

/-! ### Facts about one rebuild -/

theorem refresh_frame (rt : GoRuntime) (s : InMemStorage) :
    (refreshLeaderboard rt s).scoreEvents = s.scoreEvents ∧
    (refreshLeaderboard rt s).eventIDs = s.eventIDs ∧
    (refreshLeaderboard rt s).processedEvents = s.processedEvents ∧
    (refreshLeaderboard rt s).talentScores = s.talentScores :=
  ⟨rfl, rfl, rfl, rfl⟩

theorem refresh_getElem? (rt : GoRuntime) (s : InMemStorage) (j : Nat) :
    (refreshLeaderboard rt s).leaderboard[j]? =
      ((rt.sortSlice lessByScore (collectLoop [] (rt.rangeMap s.talentScores)))[j]?).map
        (fun r => { r with Rank := j + 1 }) := by
  simp only [refreshLeaderboard]
  rw [rankLoop_getElem?]
  congr 1
  funext r
  congr 1
  omega

theorem refresh_rank (rt : GoRuntime) (s : InMemStorage) (j : Nat) (e : TalentRank)
    (h : (refreshLeaderboard rt s).leaderboard[j]? = some e) : e.Rank = j + 1 := by
  rw [refresh_getElem?] at h
  cases hs : (rt.sortSlice lessByScore (collectLoop [] (rt.rangeMap s.talentScores)))[j]? with
  | none => rw [hs] at h; cases h
  | some r =>
    rw [hs] at h
    simp only [Option.map_some', Option.some.injEq] at h
    rw [← h]

theorem refresh_scores_perm (rt : GoRuntime) (hrt : rt.Valid) (s : InMemStorage) :
    ((refreshLeaderboard rt s).leaderboard.map (fun r => r.TalentScore)).Perm
      (s.talentScores.filterMap (fun p => rankedBest p.2)) := by
  simp only [refreshLeaderboard]
  rw [rankLoop_map_score]
  refine ((hrt.2.1 _).map _).trans ?_
  rw [collectLoop_scores]
  simpa using (hrt.1 s.talentScores).filterMap (fun p => rankedBest p.2)

theorem refresh_talentID (rt : GoRuntime) (hrt : rt.Valid) (s : InMemStorage) :
    ∀ e ∈ (refreshLeaderboard rt s).leaderboard, e.TalentID = e.TalentScore.TalentID := by
  intro e he
  have h1 : (e.TalentID, e.TalentScore) ∈
      (refreshLeaderboard rt s).leaderboard.map (fun r => (r.TalentID, r.TalentScore)) :=
    List.mem_map.2 ⟨e, he, rfl⟩
  simp only [refreshLeaderboard] at h1
  rw [rankLoop_map] at h1
  obtain ⟨r, hr, hre⟩ := List.mem_map.1 h1
  have hr2 := (hrt.2.1 _).mem_iff.1 hr
  have h3 := collectLoop_talentID [] (rt.rangeMap s.talentScores) (by simp) r hr2
  simp only [Prod.mk.injEq] at hre
  rw [← hre.1, ← hre.2]
  exact h3

theorem refresh_mem_iff (rt : GoRuntime) (hrt : rt.Valid) (s : InMemStorage) (b : TalentScore) :
    (∃ e ∈ (refreshLeaderboard rt s).leaderboard, e.TalentScore = b) ↔
      ∃ p ∈ s.talentScores, rankedBest p.2 = some b := by
  have hp := (refresh_scores_perm rt hrt s).mem_iff (a := b)
  simp only [List.mem_map, List.mem_filterMap] at hp
  exact hp

theorem refresh_sorted (rt : GoRuntime) (hrt : rt.Valid) (s : InMemStorage) :
    (refreshLeaderboard rt s).leaderboard.Pairwise
      (fun a b => b.TalentScore.Score ≤ a.TalentScore.Score) := by
  have h := hrt.2.2 (collectLoop [] (rt.rangeMap s.talentScores))
  have h2 : (rt.sortSlice lessByScore (collectLoop [] (rt.rangeMap s.talentScores))).Pairwise
      (fun a b => b.TalentScore.Score ≤ a.TalentScore.Score) := by
    refine h.imp ?_
    intro a b hab
    simpa [lessByScore] using hab
  have h3 : ((rt.sortSlice lessByScore (collectLoop [] (rt.rangeMap s.talentScores))).map
      (fun r => r.TalentScore)).Pairwise (fun a b => b.Score ≤ a.Score) :=
    List.pairwise_map.2 h2
  have h4 : ((refreshLeaderboard rt s).leaderboard.map (fun r => r.TalentScore)).Pairwise
      (fun a b => b.Score ≤ a.Score) := by
    simp only [refreshLeaderboard]
    rw [rankLoop_map_score]
    exact h3
  exact List.pairwise_map.1 h4

theorem keyed_candidates_sublist (m : List (TalentID × List TalentScore))
    (h : ∀ p ∈ m, ∀ x ∈ p.2, x.TalentID = p.1) :
    ((m.filterMap (fun p => rankedBest p.2)).map (fun b => b.TalentID)).Sublist
      (m.map Prod.fst) := by
  induction m with
  | nil => simp
  | cons p m ih =>
    have ih2 := ih (fun q hq => h q (List.mem_cons_of_mem _ hq))
    cases hb : rankedBest p.2 with
    | none =>
      simp only [List.filterMap_cons, hb, List.map_cons]
      exact List.Sublist.cons _ ih2
    | some b =>
      simp only [List.filterMap_cons, hb, List.map_cons]
      have hk : b.TalentID = p.1 := h p (List.mem_cons_self _ _) b (rankedBest_some hb).1
      rw [hk]
      exact List.Sublist.cons₂ _ ih2

theorem refresh_talentIDs_nodup (rt : GoRuntime) (hrt : rt.Valid) (s : InMemStorage)
    (hk : ScoresKeyed s.talentScores) :
    ((refreshLeaderboard rt s).leaderboard.map (fun r => r.TalentID)).Nodup := by
  have h1 : (refreshLeaderboard rt s).leaderboard.map (fun r => r.TalentID) =
      ((refreshLeaderboard rt s).leaderboard.map (fun r => r.TalentScore)).map
        (fun b => b.TalentID) := by
    rw [List.map_map]
    apply List.map_congr_left
    intro e he
    exact refresh_talentID rt hrt s e he
  rw [h1]
  have h2 := (refresh_scores_perm rt hrt s).map (fun b => b.TalentID)
  rw [h2.nodup_iff]
  exact (keyed_candidates_sublist s.talentScores hk.2).nodup hk.1

theorem rankLoop_indexAgrees (l : List TalentRank) (hnd : (l.map (fun r => r.TalentID)).Nodup)
    (t : TalentID) (i : Nat) :
    mapLookup (rankLoop 0 l []).2 t = some i ↔
      ∃ e, (rankLoop 0 l []).1[i]? = some e ∧ e.TalentID = t := by
  constructor
  · intro h
    by_cases hm : t ∈ l.map (fun r => r.TalentID)
    · obtain ⟨e0, he0, het⟩ := List.mem_map.1 hm
      obtain ⟨j, hj⟩ := List.getElem?_of_mem he0
      have h2 := rankLoop_index_mem 0 l [] hnd j e0 hj
      rw [het, h] at h2
      simp only [Option.some.injEq, Nat.zero_add] at h2
      subst h2
      refine ⟨{ e0 with Rank := 0 + i + 1 }, ?_, het⟩
      rw [rankLoop_getElem?, hj]
      rfl
    · rw [rankLoop_index_not_mem 0 l [] t hm] at h
      simp [mapLookup] at h
  · rintro ⟨e, he, het⟩
    rw [rankLoop_getElem?] at he
    cases hj : l[i]? with
    | none => rw [hj] at he; cases he
    | some e0 =>
      rw [hj] at he
      simp only [Option.map_some', Option.some.injEq] at he
      have h2 := rankLoop_index_mem 0 l [] hnd i e0 hj
      have h3 : e0.TalentID = t := by rw [← het, ← he]
      rw [h3] at h2
      simpa using h2

theorem refresh_indexAgrees (rt : GoRuntime) (hrt : rt.Valid) (s : InMemStorage)
    (hk : ScoresKeyed s.talentScores) : IndexAgrees (refreshLeaderboard rt s) := by
  have hnd := refresh_talentIDs_nodup rt hrt s hk
  simp only [refreshLeaderboard] at hnd
  rw [rankLoop_map_talentID] at hnd
  intro t i
  exact rankLoop_indexAgrees _ hnd t i

/-! ### Invariants of reachable stores -/

theorem saveTalentScore_keyed (s : InMemStorage) (talentScore : TalentScore)
    (hk : ScoresKeyed s.talentScores) : ScoresKeyed (SaveTalentScore s talentScore).2.talentScores := by
  refine ⟨mapStore_keys_nodup _ _ _ hk.1, ?_⟩
  intro p hp x hx
  simp only [SaveTalentScore] at hp
  rcases mem_mapStore _ _ _ _ hp with h | h
  · subst h
    simp only [List.mem_append, List.mem_singleton] at hx
    rcases hx with hx | hx
    · unfold mapIndex at hx
      cases hl : mapLookup s.talentScores talentScore.TalentID with
      | none => rw [hl] at hx; simp at hx
      | some v =>
        rw [hl] at hx
        exact hk.2 _ (mapLookup_mem _ _ _ hl) x hx
    · rw [hx]
  · exact hk.2 p h x hx

theorem storageReachable_inv (s : InMemStorage) (h : StorageReachable s) :
    ScoresKeyed s.talentScores ∧ IndexAgrees s ∧
      (s.leaderboard.map (fun r => r.TalentID)).Nodup ∧
      ∀ j e, s.leaderboard[j]? = some e → e.Rank = j + 1 := by
  induction h with
  | init =>
    refine ⟨⟨by simp [NewInMemStorage], by simp [NewInMemStorage]⟩, ?_, by simp [NewInMemStorage],
      by simp [NewInMemStorage]⟩
    intro t i
    simp [NewInMemStorage, mapLookup]
  | saveScoreEvent s event _ ih =>
    unfold SaveScoreEvent
    split
    · exact ih
    · exact ih
  | consumeScoreEvents s limit _ ih => exact ih
  | markScoreEventsAsProcessed s events _ ih => exact ih
  | saveTalentScore s talentScore _ ih =>
    exact ⟨saveTalentScore_keyed s talentScore ih.1, ih.2.1, ih.2.2.1, ih.2.2.2⟩
  | refreshLeaderboard rt s hrt _ ih =>
    exact ⟨ih.1, refresh_indexAgrees rt hrt s ih.1, refresh_talentIDs_nodup rt hrt s ih.1,
      refresh_rank rt s⟩

/-! ### The executable run time meets the contract -/

theorem stdRuntime_valid : stdRuntime.Valid := by
  haveI : IsTotal TalentRank (fun a b => lessByScore b a = false) :=
    ⟨fun a b => by simp only [lessByScore, decide_eq_false_iff_not]; omega⟩
  haveI : IsTrans TalentRank (fun a b => lessByScore b a = false) :=
    ⟨fun a b c => by simp only [lessByScore, decide_eq_false_iff_not]; omega⟩
  refine ⟨fun m => List.Perm.refl m, fun l => ?_, fun l => ?_⟩
  · exact List.perm_insertionSort _ l
  · exact List.sorted_insertionSort (fun a b => lessByScore b a = false) l

/-! ### Reachability -/

theorem scoreLoop_reachable (scorer : Scorer) (calls : Nat) (events acc : List ScoreEvent)
    (s : InMemStorage) (h : StorageReachable s) :
    StorageReachable (scoreLoop scorer calls events acc s).2 := by
  induction events generalizing calls acc s with
  | nil => simpa [scoreLoop] using h
  | cons event rest ih =>
    cases hsc : scorer calls event.Skill event.MetricValue with
    | error msg =>
      simp only [scoreLoop, hsc]
      exact ih _ _ _ h
    | ok score =>
      simp only [scoreLoop, hsc]
      exact ih _ _ _ (StorageReachable.saveTalentScore s _ h)

theorem processCycle_reachable (scorer : Scorer) (limit : Int) (s : InMemStorage)
    (h : StorageReachable s) : StorageReachable (processCycle scorer limit s) := by
  simp only [processCycle, ConsumeScoreEvents]
  split
  · exact StorageReachable.markScoreEventsAsProcessed _ _ (scoreLoop_reachable _ _ _ _ _ h)
  · exact scoreLoop_reachable _ _ _ _ _ h

theorem service_saveScoreEvent_storage (w : World) (event : ScoreEvent) :
    (Service.SaveScoreEvent w event).2.storage = (SaveScoreEvent w.storage event).2 := by
  by_cases h : mapIndex false w.storage.eventIDs event.EventID = true
  · simp [Service.SaveScoreEvent, SaveScoreEvent, IncScoreEventsTotal, IncScoreEventsDuplicate, h]
  · simp [Service.SaveScoreEvent, SaveScoreEvent, IncScoreEventsTotal, IncScoreEventsDuplicate, h]

theorem serviceReachable_storage (w : World) (h : ServiceReachable w) :
    StorageReachable w.storage := by
  induction h with
  | init => exact StorageReachable.init
  | saveScoreEvent w event _ ih =>
    rw [service_saveScoreEvent_storage]
    exact StorageReachable.saveScoreEvent _ _ ih
  | processCycle scorer limit w _ ih => exact processCycle_reachable _ _ _ ih
  | refreshLeaderboard rt w hrt _ ih => exact StorageReachable.refreshLeaderboard rt _ hrt ih

theorem submitAll_reachable (w : World) (events : List ScoreEvent) (h : ServiceReachable w) :
    ServiceReachable (submitAll w events) := by
  induction events generalizing w with
  | nil => exact h
  | cons event rest ih => exact ih _ (ServiceReachable.saveScoreEvent w event h)

theorem testProcessed_reachable : ServiceReachable testProcessed :=
  ServiceReachable.processCycle _ _ _ (submitAll_reachable _ _ ServiceReachable.init)

theorem testWorld_reachable : ServiceReachable testWorld :=
  ServiceReachable.refreshLeaderboard stdRuntime _ stdRuntime_valid testProcessed_reachable

theorem negativeProcessed_reachable : ServiceReachable negativeProcessed :=
  ServiceReachable.processCycle _ _ _ (ServiceReachable.saveScoreEvent _ _ ServiceReachable.init)

/-! ### Ranked talents and their records -/

theorem scoresOf_refresh (rt : GoRuntime) (s : InMemStorage) (t : TalentID) :
    scoresOf (refreshLeaderboard rt s) t = scoresOf s t := rfl

theorem scoresOf_of_mem (s : InMemStorage) (hk : ScoresKeyed s.talentScores)
    (p : TalentID × List TalentScore) (hp : p ∈ s.talentScores) : scoresOf s p.1 = p.2 := by
  unfold scoresOf mapIndex
  rw [mem_mapLookup s.talentScores p.1 p.2 hk.1 hp]
  rfl

theorem mem_of_scoresOf (s : InMemStorage) (t : TalentID) (x : TalentScore)
    (hx : x ∈ scoresOf s t) : (t, scoresOf s t) ∈ s.talentScores := by
  unfold scoresOf mapIndex at hx ⊢
  cases hl : mapLookup s.talentScores t with
  | none => rw [hl] at hx; simp at hx
  | some v => simpa using mapLookup_mem _ _ _ hl

theorem refresh_entry (rt : GoRuntime) (hrt : rt.Valid) (s : InMemStorage)
    (hk : ScoresKeyed s.talentScores) (e : TalentRank)
    (he : e ∈ (refreshLeaderboard rt s).leaderboard) :
    e.TalentScore ∈ scoresOf s e.TalentID ∧ 0 < e.TalentScore.Score ∧
      ∀ x ∈ scoresOf s e.TalentID, x.Score ≤ e.TalentScore.Score := by
  obtain ⟨p, hp, hb⟩ := (refresh_mem_iff rt hrt s e.TalentScore).1 ⟨e, he, rfl⟩
  obtain ⟨h1, h2, h3⟩ := rankedBest_some hb
  have hid : e.TalentID = p.1 := by
    rw [refresh_talentID rt hrt s e he]
    exact hk.2 p hp _ h1
  rw [hid, scoresOf_of_mem s hk p hp]
  exact ⟨h1, h2, h3⟩

theorem refresh_ranked_iff (rt : GoRuntime) (hrt : rt.Valid) (s : InMemStorage)
    (hk : ScoresKeyed s.talentScores) (t : TalentID) :
    (∃ e ∈ (refreshLeaderboard rt s).leaderboard, e.TalentID = t) ↔
      ∃ x ∈ scoresOf s t, 0 < x.Score := by
  constructor
  · rintro ⟨e, he, het⟩
    obtain ⟨h1, h2, _⟩ := refresh_entry rt hrt s hk e he
    rw [het] at h1
    exact ⟨e.TalentScore, h1, h2⟩
  · rintro ⟨x, hx, hpos⟩
    have hp := mem_of_scoresOf s t x hx
    obtain ⟨b, hb⟩ := (rankedBest_isSome_iff (scoresOf s t)).2 ⟨x, hx, hpos⟩
    obtain ⟨e, he, heb⟩ := (refresh_mem_iff rt hrt s b).2 ⟨(t, scoresOf s t), hp, hb⟩
    refine ⟨e, he, ?_⟩
    rw [refresh_talentID rt hrt s e he, heb]
    exact hk.2 _ hp b (rankedBest_some hb).1

theorem pairwise_getElem? {α : Type} {R : α → α → Prop} {l : List α} (h : l.Pairwise R)
    {i j : Nat} {a b : α} (hij : i < j) (ha : l[i]? = some a) (hb : l[j]? = some b) : R a b := by
  obtain ⟨hi, rfl⟩ := List.getElem?_eq_some.1 ha
  obtain ⟨hj, rfl⟩ := List.getElem?_eq_some.1 hb
  exact List.pairwise_iff_getElem.1 h i j hi hj hij

/-! ### C3 -/

/-- C3. After `refreshLeaderboard` on a reachable store, the score record of
every entry of the published leaderboard is one of the records stored for the
entry's talent, and its score value is the maximum over all records stored
for that talent, whatever their skill. -/
theorem refreshLeaderboard_entry_is_max (rt : GoRuntime) (hrt : rt.Valid) (s : InMemStorage)
    (hs : StorageReachable s) (e : TalentRank)
    (he : e ∈ (refreshLeaderboard rt s).leaderboard) :
    e.TalentScore ∈ scoresOf (refreshLeaderboard rt s) e.TalentID ∧
      IsMaxScore (scoresOf (refreshLeaderboard rt s) e.TalentID) e.TalentScore.Score := by
  obtain ⟨h1, _, h3⟩ := refresh_entry rt hrt s (storageReachable_inv s hs).1 e he
  rw [scoresOf_refresh]
  exact ⟨h1, ⟨e.TalentScore, h1, rfl⟩, h3⟩

theorem refreshLeaderboard_entry_is_max_witness :
    (⟨"talent-1", ⟨"talent-1", SkillShoot, 80, "event-2"⟩, 1⟩ : TalentRank) ∈
        (refreshLeaderboard stdRuntime testProcessed.storage).leaderboard ∧
      (⟨"talent-1", SkillShoot, 80, "event-2"⟩ : TalentScore) ∈
        scoresOf (refreshLeaderboard stdRuntime testProcessed.storage) "talent-1" ∧
      IsMaxScore (scoresOf (refreshLeaderboard stdRuntime testProcessed.storage) "talent-1") 80 :=
  ⟨by decide,
    refreshLeaderboard_entry_is_max stdRuntime stdRuntime_valid testProcessed.storage
      (serviceReachable_storage _ testProcessed_reachable)
      ⟨"talent-1", ⟨"talent-1", SkillShoot, 80, "event-2"⟩, 1⟩ (by decide)⟩

/-! ### C4 -/

/-- C4, as stated, fails. The event `event-1` of `talent-1` with metric value
-5 and skill dribble (weight 1) is scored -5, so the maximum score of the
talent is -5, which is not 0; yet the rebuild publishes an empty leaderboard:
the talent is absent although its maximum is a non-zero integer. -/
theorem negative_maximum_is_not_ranked :
    ServiceReachable negativeProcessed ∧
      scoresOf negativeProcessed.storage "talent-1" =
        [⟨"talent-1", SkillDribble, -5, "event-1"⟩] ∧
      IsMaxScore (scoresOf negativeProcessed.storage "talent-1") (-5) ∧
      (refreshLeaderboard stdRuntime negativeProcessed.storage).leaderboard = [] ∧
      ¬ ((∀ e ∈ (refreshLeaderboard stdRuntime negativeProcessed.storage).leaderboard,
            e.TalentID ≠ "talent-1") ↔ (-5 : Int) = 0) := by
  have h1 : scoresOf negativeProcessed.storage "talent-1" =
      [⟨"talent-1", SkillDribble, -5, "event-1"⟩] := by decide
  have h2 : (refreshLeaderboard stdRuntime negativeProcessed.storage).leaderboard = [] := by
    decide
  refine ⟨negativeProcessed_reachable, h1, ?_, h2, ?_⟩
  · rw [h1]
    exact ⟨⟨_, List.mem_singleton.2 rfl, rfl⟩, fun x hx => by
      rw [List.mem_singleton.1 hx]⟩
  · rw [h2]
    simp

/-- C4, amended. After `refreshLeaderboard` on a reachable store, a talent
whose records have maximum score value `m` is absent from the published
leaderboard exactly when `m ≤ 0`, and is ranked exactly when `0 < m`. -/
theorem refreshLeaderboard_absent_iff_nonpositive (rt : GoRuntime) (hrt : rt.Valid)
    (s : InMemStorage) (hs : StorageReachable s) (t : TalentID) (m : Int)
    (hm : IsMaxScore (scoresOf s t) m) :
    ((∀ e ∈ (refreshLeaderboard rt s).leaderboard, e.TalentID ≠ t) ↔ m ≤ 0) ∧
      ((∃ e ∈ (refreshLeaderboard rt s).leaderboard, e.TalentID = t) ↔ 0 < m) := by
  have hk := (storageReachable_inv s hs).1
  have hiff := refresh_ranked_iff rt hrt s hk t
  obtain ⟨⟨x, hx, hxm⟩, hmax⟩ := hm
  have h2 : (∃ e ∈ (refreshLeaderboard rt s).leaderboard, e.TalentID = t) ↔ 0 < m := by
    rw [hiff]
    constructor
    · rintro ⟨y, hy, hpos⟩
      have := hmax y hy
      omega
    · intro hpos
      exact ⟨x, hx, by omega⟩
  refine ⟨?_, h2⟩
  constructor
  · intro h
    by_contra hc
    obtain ⟨e, he, het⟩ := h2.2 (by omega)
    exact h e he het
  · intro hle e he het
    have := h2.1 ⟨e, he, het⟩
    omega

theorem refreshLeaderboard_absent_iff_nonpositive_witness :
    IsMaxScore (scoresOf negativeProcessed.storage "talent-1") (-5) ∧
      ((∀ e ∈ (refreshLeaderboard stdRuntime negativeProcessed.storage).leaderboard,
          e.TalentID ≠ "talent-1") ↔ (-5 : Int) ≤ 0) :=
  have hm : IsMaxScore (scoresOf negativeProcessed.storage "talent-1") (-5) :=
    ⟨⟨⟨"talent-1", SkillDribble, -5, "event-1"⟩, by decide, rfl⟩, by decide⟩
  ⟨hm, (refreshLeaderboard_absent_iff_nonpositive stdRuntime stdRuntime_valid
    negativeProcessed.storage (serviceReachable_storage _ negativeProcessed_reachable)
    "talent-1" (-5) hm).1⟩

theorem getTopRankedTalents_eq (s : InMemStorage) (limit : Int) :
    GetTopRankedTalents s limit =
      if limit < 0 then none else some ((s.leaderboard.take limit.toNat, none), s) := by
  unfold GetTopRankedTalents
  by_cases h : limit > (s.leaderboard.length : Int)
  · have h1 : ¬ ((s.leaderboard.length : Int) < 0) := by omega
    have h2 : ¬ (limit < 0) := by omega
    have h3 : s.leaderboard.length ≤ limit.toNat := by omega
    simp only [h, if_true, h1, if_false, h2, Int.toNat_ofNat]
    rw [List.take_of_length_le (Nat.le_refl _), List.take_of_length_le h3]
  · simp only [h, if_false]

/-! ### C5 -/

/-- C5. After `refreshLeaderboard` the published leaderboard is ordered by best
score, descending: for positions `i < j` the score at `i` is at least the score
at `j`, and strictly greater when the best scores on the leaderboard are
pairwise distinct. -/
theorem refreshLeaderboard_descending (rt : GoRuntime) (hrt : rt.Valid) (s : InMemStorage)
    (i j : Nat) (a b : TalentRank) (hij : i < j)
    (ha : (refreshLeaderboard rt s).leaderboard[i]? = some a)
    (hb : (refreshLeaderboard rt s).leaderboard[j]? = some b) :
    a.TalentScore.Score ≥ b.TalentScore.Score ∧
      (((refreshLeaderboard rt s).leaderboard.map (fun r => r.TalentScore.Score)).Nodup →
        a.TalentScore.Score > b.TalentScore.Score) := by
  have h1 : b.TalentScore.Score ≤ a.TalentScore.Score :=
    pairwise_getElem? (refresh_sorted rt hrt s) hij ha hb
  refine ⟨h1, fun hnd => ?_⟩
  have h2 : a.TalentScore.Score ≠ b.TalentScore.Score :=
    pairwise_getElem? (List.pairwise_map.1 hnd) hij ha hb
  omega

theorem refreshLeaderboard_descending_witness :
    (testWorld.storage.leaderboard.map (fun r => (r.TalentID, r.TalentScore.Score))) =
        [("talent-1", 80), ("talent-3", 70), ("talent-2", 60)] ∧
      ((80 : Int) ≥ 60 ∧
        ((testWorld.storage.leaderboard.map (fun r => r.TalentScore.Score)).Nodup →
          (80 : Int) > 60)) :=
  ⟨by decide,
    refreshLeaderboard_descending stdRuntime stdRuntime_valid testProcessed.storage 0 2
      ⟨"talent-1", ⟨"talent-1", SkillShoot, 80, "event-2"⟩, 1⟩
      ⟨"talent-2", ⟨"talent-2", SkillPass, 60, "event-3"⟩, 3⟩ (by decide) (by decide) (by decide)⟩

/-! ### C6 -/

/-- C6. After `refreshLeaderboard` the ranks are 1..n in order: the entry at
position `i` of the published leaderboard has rank `i + 1`, and so has the
entry at position `i` of whatever `GetTopRankedTalents` then returns. -/
theorem refreshLeaderboard_ranks_contiguous (rt : GoRuntime) (s : InMemStorage) :
    (∀ i e, (refreshLeaderboard rt s).leaderboard[i]? = some e → e.Rank = i + 1) ∧
      (∀ limit res err st,
        GetTopRankedTalents (refreshLeaderboard rt s) limit = some ((res, err), st) →
          ∀ i e, res[i]? = some e → e.Rank = i + 1) := by
  refine ⟨refresh_rank rt s, ?_⟩
  intro limit res err st h i e hie
  rw [getTopRankedTalents_eq] at h
  split at h
  · cases h
  · simp only [Option.some.injEq, Prod.mk.injEq] at h
    obtain ⟨⟨hres, _⟩, _⟩ := h
    rw [← hres, List.getElem?_take] at hie
    split at hie
    · exact refresh_rank rt s i e hie
    · cases hie

/-! ### C7 -/

/-- C7. In every reachable store the index and the sequence agree: the index
maps talent `t` to `i` exactly when `i` is a position of the leaderboard whose
entry has talent id `t`; no talent occurs twice in the leaderboard; and
`FindTalentRank` never indexes the leaderboard out of range. -/
theorem index_agrees_with_leaderboard (s : InMemStorage) (hs : StorageReachable s) :
    (∀ (t : TalentID) (i : Nat), mapLookup s.talentLeaderboardIndex t = some i ↔
        ∃ e, s.leaderboard[i]? = some e ∧ e.TalentID = t) ∧
      (s.leaderboard.map (fun r => r.TalentID)).Nodup ∧
      ∀ t : TalentID, (FindTalentRank s t).isSome = true := by
  obtain ⟨_, hidx, hnd, _⟩ := storageReachable_inv s hs
  refine ⟨hidx, hnd, ?_⟩
  intro t
  unfold FindTalentRank
  cases hl : mapLookup s.talentLeaderboardIndex t with
  | none => rfl
  | some i =>
    obtain ⟨e, he, _⟩ := (hidx t i).1 hl
    simp [he]

theorem index_agrees_with_leaderboard_witness :
    (∀ (t : TalentID) (i : Nat), mapLookup testWorld.storage.talentLeaderboardIndex t = some i ↔
        ∃ e, testWorld.storage.leaderboard[i]? = some e ∧ e.TalentID = t) ∧
      (testWorld.storage.leaderboard.map (fun r => r.TalentID)).Nodup ∧
      ∀ t : TalentID, (FindTalentRank testWorld.storage t).isSome = true :=
  index_agrees_with_leaderboard testWorld.storage (serviceReachable_storage _ testWorld_reachable)

theorem getTalentRank_of_mem (w : World) (hw : StorageReachable w.storage) (e0 : TalentRank)
    (he0 : e0 ∈ w.storage.leaderboard) :
    Service.GetTalentRank w e0.TalentID = some ((e0, none), w) ∧ 1 ≤ e0.Rank := by
  obtain ⟨_, hidx, _, hrank⟩ := storageReachable_inv w.storage hw
  obtain ⟨i, hi⟩ := List.getElem?_of_mem he0
  have hl := (hidx e0.TalentID i).2 ⟨e0, hi, rfl⟩
  refine ⟨?_, ?_⟩
  · simp [Service.GetTalentRank, FindTalentRank, hl, hi]
  · have := hrank i e0 hi
    omega

theorem getTopTalents_pos (w : World) (limit : Int) (hl : 0 < limit) :
    GetTopRankedTalents w.storage limit =
        some ((w.storage.leaderboard.take (min limit.toNat w.storage.leaderboard.length), none),
          w.storage) ∧
      Service.GetTopTalents w limit =
        some ((w.storage.leaderboard.take (min limit.toNat w.storage.leaderboard.length), none),
          w) := by
  have htake : w.storage.leaderboard.take (min limit.toNat w.storage.leaderboard.length) =
      w.storage.leaderboard.take limit.toNat := by
    rw [List.take_eq_take]
    omega
  have h1 : GetTopRankedTalents w.storage limit =
      some ((w.storage.leaderboard.take (min limit.toNat w.storage.leaderboard.length), none),
        w.storage) := by
    rw [getTopRankedTalents_eq, htake]
    have : ¬ limit < 0 := by omega
    simp [this]
  refine ⟨h1, ?_⟩
  simp [Service.GetTopTalents, h1]

/-! ### C8 -/

/-- C8. On a world whose store is reachable, `Service.GetTalentRank t` returns
the zero `TalentRank` with `ErrTalentNotFound` exactly when no leaderboard
entry has talent id `t`; when some entry has, it returns that entry without
error, the entry is the only one with that talent id, and its rank is at
least 1. On the fresh store every id is not found. The world is unchanged. -/
theorem GetTalentRank_not_found_iff (w : World) (hw : StorageReachable w.storage)
    (t : TalentID) :
    (Service.GetTalentRank w t = some ((TalentRank.zero, some ErrTalentNotFound), w) ↔
        ∀ e ∈ w.storage.leaderboard, e.TalentID ≠ t) ∧
      ((∃ e ∈ w.storage.leaderboard, e.TalentID = t) →
        ∃ e, Service.GetTalentRank w t = some ((e, none), w) ∧ e ∈ w.storage.leaderboard ∧
          e.TalentID = t ∧ 1 ≤ e.Rank ∧
          ∀ e2 ∈ w.storage.leaderboard, e2.TalentID = t → e2 = e) ∧
      Service.GetTalentRank NewService t =
        some ((TalentRank.zero, some ErrTalentNotFound), NewService) := by
  obtain ⟨_, hidx, hnd, hrank⟩ := storageReachable_inv w.storage hw
  refine ⟨?_, ?_, rfl⟩
  · cases hl : mapLookup w.storage.talentLeaderboardIndex t with
    | none =>
      constructor
      · intro _ e he het
        obtain ⟨i, hi⟩ := List.getElem?_of_mem he
        have := (hidx t i).2 ⟨e, hi, het⟩
        rw [hl] at this
        cases this
      · intro _
        simp [Service.GetTalentRank, FindTalentRank, hl]
    | some i =>
      obtain ⟨e, he, het⟩ := (hidx t i).1 hl
      constructor
      · intro h
        simp [Service.GetTalentRank, FindTalentRank, hl, he] at h
      · intro h
        exact absurd het (h e (List.getElem?_mem he))
  · rintro ⟨e0, he0, het0⟩
    obtain ⟨h1, h2⟩ := getTalentRank_of_mem w hw e0 he0
    rw [het0] at h1
    refine ⟨e0, h1, he0, het0, h2, ?_⟩
    intro e2 he2 het2
    exact List.inj_on_of_nodup_map hnd he2 he0 (het2.trans het0.symm)

theorem GetTalentRank_not_found_iff_witness :
    (Service.GetTalentRank testWorld "unknown-talent" =
          some ((TalentRank.zero, some ErrTalentNotFound), testWorld) ↔
        ∀ e ∈ testWorld.storage.leaderboard, e.TalentID ≠ "unknown-talent") ∧
      Service.GetTalentRank testWorld "unknown-talent" =
        some ((TalentRank.zero, some ErrTalentNotFound), testWorld) ∧
      Service.GetTalentRank testWorld "talent-3" =
        some ((⟨"talent-3", ⟨"talent-3", SkillPass, 70, "event-6"⟩, 2⟩, none), testWorld) :=
  ⟨(GetTalentRank_not_found_iff testWorld (serviceReachable_storage _ testWorld_reachable)
      "unknown-talent").1, by decide, by decide⟩

/-! ### C9 -/

/-- C9. For a positive limit `GetTopRankedTalents` (and `Service.GetTopTalents`)
returns, without error and without changing the store, exactly the first
`min limit n` entries of the `n`-entry leaderboard in leaderboard order; after
a rebuild every returned entry scores at least as high as every entry left
out. -/
theorem GetTopRankedTalents_first_entries (w : World) (limit : Int) (hl : 0 < limit) :
    GetTopRankedTalents w.storage limit =
        some ((w.storage.leaderboard.take (min limit.toNat w.storage.leaderboard.length), none),
          w.storage) ∧
      Service.GetTopTalents w limit =
        some ((w.storage.leaderboard.take (min limit.toNat w.storage.leaderboard.length), none),
          w) ∧
      (w.storage.leaderboard.take (min limit.toNat w.storage.leaderboard.length)).length =
        min limit.toNat w.storage.leaderboard.length ∧
      ∀ rt : GoRuntime, rt.Valid →
        ∀ a ∈ (refreshLeaderboard rt w.storage).leaderboard.take
            (min limit.toNat (refreshLeaderboard rt w.storage).leaderboard.length),
          ∀ b ∈ (refreshLeaderboard rt w.storage).leaderboard.drop
              (min limit.toNat (refreshLeaderboard rt w.storage).leaderboard.length),
            b.TalentScore.Score ≤ a.TalentScore.Score := by
  refine ⟨(getTopTalents_pos w limit hl).1, (getTopTalents_pos w limit hl).2, ?_, ?_⟩
  · rw [List.length_take]
    omega
  · intro rt hrt a ha b hb
    have hs := refresh_sorted rt hrt w.storage
    rw [← List.take_append_drop
      (min limit.toNat (refreshLeaderboard rt w.storage).leaderboard.length)
      (refreshLeaderboard rt w.storage).leaderboard] at hs
    exact (List.pairwise_append.1 hs).2.2 a ha b hb

theorem GetTopRankedTalents_first_entries_witness :
    (0 : Int) < 2 ∧
      (GetTopRankedTalents testWorld.storage 2).map
          (fun r => r.1.1.map (fun e => (e.TalentID, e.TalentScore.Score, e.Rank))) =
        some [("talent-1", 80, 1), ("talent-3", 70, 2)] ∧
      GetTopRankedTalents testWorld.storage 2 =
        some ((testWorld.storage.leaderboard.take
          (min (2 : Int).toNat testWorld.storage.leaderboard.length), none), testWorld.storage) :=
  ⟨by decide, by decide,
    (GetTopRankedTalents_first_entries testWorld 2 (by decide)).1⟩

/-! ### One processing cycle -/

theorem scoreLoop_eq (scorer : Scorer) (calls : Nat) (events acc : List ScoreEvent)
    (s : InMemStorage) :
    scoreLoop scorer calls events acc s =
      (acc ++ (scoredEvents scorer calls events).map Prod.fst,
        saveAll s ((scoredEvents scorer calls events).map toTalentScore)) := by
  induction events generalizing calls acc s with
  | nil => simp [scoreLoop, scoredEvents, saveAll]
  | cons event rest ih =>
    cases hsc : scorer calls event.Skill event.MetricValue with
    | error msg => simp only [scoreLoop, scoredEvents, hsc, ih]
    | ok score =>
      simp only [scoreLoop, scoredEvents, hsc, ih, SaveTalentScore, List.map_cons, saveAll,
        toTalentScore, List.append_assoc, List.singleton_append]

theorem scoredEvents_sublist (scorer : Scorer) (calls : Nat) (events : List ScoreEvent) :
    ((scoredEvents scorer calls events).map Prod.fst).Sublist events := by
  induction events generalizing calls with
  | nil => simp [scoredEvents]
  | cons event rest ih =>
    cases hsc : scorer calls event.Skill event.MetricValue with
    | error msg =>
      simp only [scoredEvents, hsc]
      exact List.Sublist.cons _ (ih _)
    | ok score =>
      simp only [scoredEvents, hsc, List.map_cons]
      exact List.Sublist.cons₂ _ (ih _)

theorem saveAll_frame (s : InMemStorage) (l : List TalentScore) :
    (saveAll s l).scoreEvents = s.scoreEvents ∧ (saveAll s l).eventIDs = s.eventIDs ∧
      (saveAll s l).processedEvents = s.processedEvents ∧
      (saveAll s l).leaderboard = s.leaderboard ∧
      (saveAll s l).talentLeaderboardIndex = s.talentLeaderboardIndex := by
  induction l generalizing s with
  | nil => simp [saveAll]
  | cons x l ih =>
    simp only [saveAll]
    obtain ⟨h1, h2, h3, h4, h5⟩ := ih (SaveTalentScore s x).2
    exact ⟨h1, h2, h3, h4, h5⟩

theorem flatten_mapStore_append (m : List (TalentID × List TalentScore)) (x : TalentScore)
    (k : TalentID) :
    (((mapStore m k (mapIndex [] m k ++ [x])).map Prod.snd).flatten).Perm
      ((m.map Prod.snd).flatten ++ [x]) := by
  induction m with
  | nil => simp [mapStore, mapIndex, mapLookup]
  | cons p m ih =>
    obtain ⟨k1, v1⟩ := p
    by_cases h1 : k1 = k
    · subst h1
      simp only [mapStore, mapIndex, mapLookup, if_true, Option.getD_some, List.map_cons,
        List.flatten_cons, List.append_assoc]
      exact List.Perm.append_left v1 List.perm_append_comm
    · have h2 : mapIndex [] ((k1, v1) :: m) k = mapIndex [] m k := by
        simp [mapIndex, mapLookup, h1]
      rw [h2]
      simp only [mapStore, h1, if_false, List.map_cons, List.flatten_cons, List.append_assoc]
      exact List.Perm.append_left v1 ih

theorem allScores_saveTalentScore (s : InMemStorage) (x : TalentScore) :
    (allScores (SaveTalentScore s x).2).Perm (allScores s ++ [x]) :=
  flatten_mapStore_append s.talentScores x x.TalentID

theorem allScores_saveAll (s : InMemStorage) (l : List TalentScore) :
    (allScores (saveAll s l)).Perm (allScores s ++ l) := by
  induction l generalizing s with
  | nil => simp [saveAll]
  | cons x l ih =>
    simp only [saveAll]
    refine (ih _).trans ?_
    refine ((allScores_saveTalentScore s x).append_right l).trans ?_
    simp

theorem mapIndex_markLoop (p : List (String × Bool)) (events : List ScoreEvent) (id : String) :
    mapIndex false (markLoop p events) id = true ↔
      mapIndex false p id = true ∨ id ∈ events.map (fun e => e.EventID) := by
  induction events generalizing p with
  | nil => simp [markLoop]
  | cons e rest ih =>
    simp only [markLoop, ih, mapIndex_mapStore, List.map_cons, List.mem_cons]
    by_cases h : e.EventID = id
    · simp [h]
    · have h2 : ¬ id = e.EventID := fun q => h q.symm
      simp [h, h2]

theorem consumeLoop_spec (p : List (String × Bool)) (limit : Int)
    (l acc : List ScoreEvent) :
    ∃ r, consumeLoop p limit l acc = acc ++ r ∧ r.Sublist l ∧
      ∀ e ∈ r, mapIndex false p e.EventID = false := by
  induction l generalizing acc with
  | nil => exact ⟨[], by simp [consumeLoop], List.Sublist.refl _, by simp⟩
  | cons e rest ih =>
    by_cases h : mapIndex false p e.EventID = true
    · obtain ⟨r, h1, h2, h3⟩ := ih acc
      refine ⟨r, ?_, List.Sublist.cons _ h2, h3⟩
      simp only [consumeLoop, h, Bool.not_true, Bool.false_eq_true, if_false]
      exact h1
    · have hf : mapIndex false p e.EventID = false := by simpa using h
      by_cases hlim : ((acc ++ [e]).length : Int) ≥ limit
      · refine ⟨[e], ?_, ?_, ?_⟩
        · simp only [consumeLoop, hf, Bool.not_false, if_true, hlim]
        · exact List.Sublist.cons₂ _ (List.nil_sublist _)
        · intro x hx
          rw [List.mem_singleton.1 hx]
          exact hf
      · obtain ⟨r, h1, h2, h3⟩ := ih (acc ++ [e])
        refine ⟨e :: r, ?_, List.Sublist.cons₂ _ h2, ?_⟩
        · simp only [consumeLoop, hf, Bool.not_false, if_true, hlim, if_false]
          rw [h1]
          simp
        · intro x hx
          rcases List.mem_cons.1 hx with hx | hx
          · rw [hx]; exact hf
          · exact h3 x hx

theorem processCycle_eq (scorer : Scorer) (limit : Int) (s : InMemStorage) :
    processCycle scorer limit s =
      { saveAll s ((scoredEvents scorer 0 (consumeLoop s.processedEvents limit s.scoreEvents
            [])).map toTalentScore) with
        processedEvents := markLoop s.processedEvents
          ((scoredEvents scorer 0 (consumeLoop s.processedEvents limit s.scoreEvents [])).map
            Prod.fst) } := by
  simp only [processCycle, ConsumeScoreEvents, scoreLoop_eq, List.nil_append,
    MarkScoreEventsAsProcessed]
  have hf := (saveAll_frame s ((scoredEvents scorer 0
    (consumeLoop s.processedEvents limit s.scoreEvents [])).map toTalentScore)).2.2.1
  split
  · rw [hf]
  · rename_i hlen
    have hnil : (scoredEvents scorer 0 (consumeLoop s.processedEvents limit s.scoreEvents
        [])).map Prod.fst = [] := by
      apply List.eq_nil_of_length_eq_zero
      omega
    rw [hnil]
    simp only [markLoop]
    generalize saveAll s ((scoredEvents scorer 0
      (consumeLoop s.processedEvents limit s.scoreEvents [])).map toTalentScore) = S at hf
    cases S
    simp only at hf
    simp only [hf]

theorem processCycle_effect (scorer : Scorer) (limit : Int) (s : InMemStorage) :
    ∃ succ : List ScoreEvent, succ.Sublist s.scoreEvents ∧
      (∀ e ∈ succ, mapIndex false s.processedEvents e.EventID = false) ∧
      (processCycle scorer limit s).processedEvents = markLoop s.processedEvents succ ∧
      ((allScores (processCycle scorer limit s)).map (fun x => x.EventID)).Perm
        ((allScores s).map (fun x => x.EventID) ++ succ.map (fun e => e.EventID)) ∧
      (processCycle scorer limit s).scoreEvents = s.scoreEvents ∧
      (processCycle scorer limit s).eventIDs = s.eventIDs := by
  obtain ⟨r, hr, hsub, hun⟩ := consumeLoop_spec s.processedEvents limit s.scoreEvents []
  rw [List.nil_append] at hr
  have hss := scoredEvents_sublist scorer 0 r
  have hfr := saveAll_frame s ((scoredEvents scorer 0 r).map toTalentScore)
  refine ⟨(scoredEvents scorer 0 r).map Prod.fst, hss.trans hsub,
    fun e he => hun e (hss.subset he), ?_, ?_, ?_, ?_⟩
  · rw [processCycle_eq, hr]
  · rw [processCycle_eq, hr]
    have h1 := (allScores_saveAll s ((scoredEvents scorer 0 r).map toTalentScore)).map
      (fun x => x.EventID)
    have h2 : ((scoredEvents scorer 0 r).map toTalentScore).map (fun x => x.EventID) =
        ((scoredEvents scorer 0 r).map Prod.fst).map (fun e => e.EventID) := by
      simp [List.map_map, Function.comp_def, toTalentScore]
    rw [List.map_append, h2] at h1
    exact h1
  · rw [processCycle_eq, hr]
    exact hfr.1
  · rw [processCycle_eq, hr]
    exact hfr.2.1

theorem serviceReachable_inv (w : World) (h : ServiceReachable w) :
    (w.storage.scoreEvents.map (fun e => e.EventID)).Nodup ∧
      (∀ e ∈ w.storage.scoreEvents, mapIndex false w.storage.eventIDs e.EventID = true) ∧
      ((allScores w.storage).map (fun x => x.EventID)).Nodup ∧
      (∀ x ∈ allScores w.storage, mapIndex false w.storage.processedEvents x.EventID = true) ∧
      (∀ id, mapIndex false w.storage.processedEvents id = true →
        id ∈ (allScores w.storage).map (fun x => x.EventID)) := by
  induction h with
  | init =>
    simp [NewService, NewInMemStorage, allScores, mapIndex, mapLookup]
  | saveScoreEvent w event _ ih =>
    obtain ⟨ha, hb, hc, hd, he⟩ := ih
    rw [service_saveScoreEvent_storage]
    by_cases hseen : mapIndex false w.storage.eventIDs event.EventID = true
    · simp only [SaveScoreEvent, hseen, if_true]
      exact ⟨ha, hb, hc, hd, he⟩
    · simp only [SaveScoreEvent, hseen, Bool.false_eq_true, if_false]
      refine ⟨?_, ?_, hc, hd, he⟩
      · rw [List.map_append]
        refine List.Nodup.append ha (List.nodup_singleton _) ?_
        intro id h1 h2
        simp only [List.map_cons, List.map_nil, List.mem_singleton] at h2
        subst h2
        obtain ⟨e, hel, hid⟩ := List.mem_map.1 h1
        have := hb e hel
        rw [hid] at this
        exact hseen this
      · intro e hel
        rw [mapIndex_mapStore]
        rcases List.mem_append.1 hel with hel | hel
        · have := hb e hel
          split
          · rfl
          · exact this
        · rw [List.mem_singleton.1 hel]
          simp
  | processCycle scorer limit w _ ih =>
    obtain ⟨ha, hb, hc, hd, he⟩ := ih
    obtain ⟨succ, hsub, hun, hproc, hperm, hlog, hids⟩ :=
      processCycle_effect scorer limit w.storage
    have hmem : ∀ id, id ∈ (allScores (processCycle scorer limit w.storage)).map
        (fun x => x.EventID) ↔
        id ∈ (allScores w.storage).map (fun x => x.EventID) ∨
          id ∈ succ.map (fun e => e.EventID) := by
      intro id
      rw [hperm.mem_iff, List.mem_append]
    show (((processCycle scorer limit w.storage).scoreEvents).map (fun e => e.EventID)).Nodup ∧
      (∀ e ∈ (processCycle scorer limit w.storage).scoreEvents,
        mapIndex false (processCycle scorer limit w.storage).eventIDs e.EventID = true) ∧
      ((allScores (processCycle scorer limit w.storage)).map (fun x => x.EventID)).Nodup ∧
      (∀ x ∈ allScores (processCycle scorer limit w.storage),
        mapIndex false (processCycle scorer limit w.storage).processedEvents x.EventID = true) ∧
      (∀ id, mapIndex false (processCycle scorer limit w.storage).processedEvents id = true →
        id ∈ (allScores (processCycle scorer limit w.storage)).map (fun x => x.EventID))
    rw [hlog, hids, hproc]
    refine ⟨ha, hb, ?_, ?_, ?_⟩
    · rw [hperm.nodup_iff]
      refine List.Nodup.append hc ((hsub.map _).nodup ha) ?_
      intro id h1 h2
      obtain ⟨x, hx, hxid⟩ := List.mem_map.1 h1
      obtain ⟨e, hes, heid⟩ := List.mem_map.1 h2
      have t1 := hd x hx
      have t2 := hun e hes
      rw [hxid] at t1
      rw [heid, t1] at t2
      cases t2
    · intro x hx
      rw [mapIndex_markLoop]
      rcases (hmem x.EventID).1 (List.mem_map.2 ⟨x, hx, rfl⟩) with h1 | h1
      · obtain ⟨y, hy, hyid⟩ := List.mem_map.1 h1
        left
        rw [← hyid]
        exact hd y hy
      · exact Or.inr h1
    · intro id hid
      rw [mapIndex_markLoop] at hid
      rw [hmem]
      rcases hid with hid | hid
      · exact Or.inl (he id hid)
      · exact Or.inr hid
  | refreshLeaderboard rt w hrt _ ih => exact ih

/-! ### C2 -/

/-- C2. In every world reachable from program start by `Service.SaveScoreEvent`
calls, processing cycles (any scorer, succeeding or failing call by call, and
any limit) and leaderboard rebuilds, the score store holds at most one record
for any event id and exactly one for every event id marked processed. -/
theorem one_score_per_event (w : World) (hw : ServiceReachable w) (id : String) :
    scoreCount w.storage id ≤ 1 ∧
      (mapIndex false w.storage.processedEvents id = true → scoreCount w.storage id = 1) := by
  obtain ⟨_, _, hc, _, he⟩ := serviceReachable_inv w hw
  have h1 : scoreCount w.storage id ≤ 1 := List.nodup_iff_count_le_one.1 hc id
  refine ⟨h1, fun hp => ?_⟩
  have h2 : 0 < scoreCount w.storage id := List.count_pos_iff.2 (he id hp)
  omega

theorem duplicateWorld_reachable : ServiceReachable duplicateWorld :=
  ServiceReachable.refreshLeaderboard stdRuntime _ stdRuntime_valid
    (ServiceReachable.processCycle _ _ _
      (ServiceReachable.saveScoreEvent _ _
        (ServiceReachable.processCycle _ _ _
          (ServiceReachable.saveScoreEvent _ _
            (ServiceReachable.saveScoreEvent _ _ ServiceReachable.init)))))

theorem one_score_per_event_witness :
    ServiceReachable duplicateWorld ∧
      mapIndex false duplicateWorld.storage.processedEvents "event-1" = true ∧
      allScores duplicateWorld.storage = [⟨"talent-1", SkillDribble, 50, "event-1"⟩] ∧
      (scoreCount duplicateWorld.storage "event-1" ≤ 1 ∧
        (mapIndex false duplicateWorld.storage.processedEvents "event-1" = true →
          scoreCount duplicateWorld.storage "event-1" = 1)) :=
  ⟨duplicateWorld_reachable, by decide, by decide,
    one_score_per_event duplicateWorld duplicateWorld_reachable "event-1"⟩

/-! ### Submitting a list of fresh events and processing it in one cycle -/

theorem submitAll_storage (w : World) (events : List ScoreEvent)
    (hK : ∀ id, mapIndex false w.storage.eventIDs id = true ↔
      id ∈ w.storage.scoreEvents.map (fun e => e.EventID))
    (hnd : ((w.storage.scoreEvents ++ events).map (fun e => e.EventID)).Nodup) :
    (submitAll w events).storage.scoreEvents = w.storage.scoreEvents ++ events ∧
      (submitAll w events).storage.processedEvents = w.storage.processedEvents ∧
      (submitAll w events).storage.talentScores = w.storage.talentScores := by
  induction events generalizing w with
  | nil => simp [submitAll]
  | cons e rest ih =>
    have hnot : ¬ mapIndex false w.storage.eventIDs e.EventID = true := by
      intro hseen
      have h1 := (hK e.EventID).1 hseen
      rw [List.map_append, List.nodup_append] at hnd
      exact hnd.2.2 h1 (by simp)
    have hst : (Service.SaveScoreEvent w e).2.storage =
        { w.storage with eventIDs := mapStore w.storage.eventIDs e.EventID true,
                         scoreEvents := w.storage.scoreEvents ++ [e] } := by
      rw [service_saveScoreEvent_storage]
      simp only [SaveScoreEvent, hnot, Bool.false_eq_true, if_false]
    have hK1 : ∀ id, mapIndex false (Service.SaveScoreEvent w e).2.storage.eventIDs id = true ↔
        id ∈ (Service.SaveScoreEvent w e).2.storage.scoreEvents.map (fun e => e.EventID) := by
      intro id
      rw [hst]
      simp only [mapIndex_mapStore, List.map_append, List.map_cons, List.map_nil,
        List.mem_append, List.mem_singleton]
      by_cases hid : e.EventID = id
      · simp [hid]
      · have hid2 : ¬ id = e.EventID := fun q => hid q.symm
        simp only [hid, if_false, hid2, or_false]
        exact hK id
    have hnd1 : (((Service.SaveScoreEvent w e).2.storage.scoreEvents ++ rest).map
        (fun e => e.EventID)).Nodup := by
      rw [hst]
      simpa using hnd
    obtain ⟨h1, h2, h3⟩ := ih _ hK1 hnd1
    simp only [submitAll]
    rw [h1, h2, h3, hst]
    simp

theorem consumeLoop_all (p : List (String × Bool)) (limit : Int) (l acc : List ScoreEvent)
    (hun : ∀ e ∈ l, mapIndex false p e.EventID = false)
    (hlim : ((acc.length + l.length : Nat) : Int) ≤ limit) :
    consumeLoop p limit l acc = acc ++ l := by
  induction l generalizing acc with
  | nil => simp [consumeLoop]
  | cons e rest ih =>
    have hf := hun e (List.mem_cons_self _ _)
    by_cases hge : ((acc ++ [e]).length : Int) ≥ limit
    · have hr : rest = [] := by
        apply List.eq_nil_of_length_eq_zero
        simp only [List.length_append, List.length_cons, List.length_nil] at hge hlim
        omega
      simp only [consumeLoop, hf, Bool.not_false, if_true, hge, hr]
    · simp only [consumeLoop, hf, Bool.not_false, if_true, hge, if_false]
      rw [ih (acc ++ [e]) (fun x hx => hun x (List.mem_cons_of_mem _ hx))
        (by simp only [List.length_append, List.length_cons, List.length_nil] at hlim ⊢; omega)]
      simp

theorem scoresOf_saveTalentScore (s : InMemStorage) (x : TalentScore) (t : TalentID) :
    scoresOf (SaveTalentScore s x).2 t =
      if x.TalentID = t then scoresOf s t ++ [x] else scoresOf s t := by
  unfold scoresOf
  simp only [SaveTalentScore]
  rw [mapIndex_mapStore]
  split
  · rename_i h
    rw [h]
  · rfl

theorem scoresOf_saveAll (s : InMemStorage) (l : List TalentScore) (t : TalentID) :
    scoresOf (saveAll s l) t = scoresOf s t ++ l.filter (fun x => x.TalentID = t) := by
  induction l generalizing s with
  | nil => simp [saveAll]
  | cons x l ih =>
    simp only [saveAll]
    rw [ih, scoresOf_saveTalentScore]
    by_cases h : x.TalentID = t
    · simp [h]
    · simp [h]

theorem scoresOf_processed_fresh (scorer : Scorer) (limit : Int) (events : List ScoreEvent)
    (hnd : (events.map (fun e => e.EventID)).Nodup) (hlimit : (events.length : Int) ≤ limit)
    (t : TalentID) :
    scoresOf (Service.processCycle scorer limit (submitAll NewService events)).storage t =
      computedScores scorer events t := by
  obtain ⟨h1, h2, h3⟩ := submitAll_storage NewService events
    (by intro id; simp [NewService, NewInMemStorage, mapIndex, mapLookup])
    (by simpa [NewService, NewInMemStorage] using hnd)
  have hlog : (submitAll NewService events).storage.scoreEvents = events := by
    rw [h1]; simp [NewService, NewInMemStorage]
  have hproc : (submitAll NewService events).storage.processedEvents = [] := by
    rw [h2]; simp [NewService, NewInMemStorage]
  have hsc : scoresOf (submitAll NewService events).storage t = [] := by
    unfold scoresOf
    rw [h3]
    simp [NewService, NewInMemStorage, mapIndex, mapLookup]
  have hbatch : consumeLoop [] limit events [] = events := by
    rw [consumeLoop_all [] limit events [] (by intro e _; simp [mapIndex, mapLookup])
      (by simpa using hlimit)]
    simp
  show scoresOf (processCycle scorer limit (submitAll NewService events).storage) t = _
  rw [processCycle_eq, hlog, hproc, hbatch]
  show scoresOf (saveAll (submitAll NewService events).storage
    ((scoredEvents scorer 0 events).map toTalentScore)) t = _
  rw [scoresOf_saveAll, hsc]
  simp [computedScores]

theorem scoredEvents_all (scorer : Scorer)
    (hok : ∀ calls skill metric, ∃ v, scorer calls skill metric = .ok v) (calls : Nat)
    (events : List ScoreEvent) : (scoredEvents scorer calls events).map Prod.fst = events := by
  induction events generalizing calls with
  | nil => simp [scoredEvents]
  | cons e rest ih =>
    obtain ⟨v, hv⟩ := hok calls e.Skill e.MetricValue
    simp only [scoredEvents, hv, List.map_cons, ih]

theorem endToEnd_reachable (rt : GoRuntime) (hrt : rt.Valid) (scorer : Scorer) (limit : Int)
    (events : List ScoreEvent) : ServiceReachable (endToEnd rt scorer limit events) :=
  ServiceReachable.refreshLeaderboard rt _ hrt
    (ServiceReachable.processCycle _ _ _ (submitAll_reachable _ _ ServiceReachable.init))

theorem scoredEvents_all_of_batch (scorer : Scorer) (calls : Nat) (events : List ScoreEvent)
    (hok : ∀ i e, events[i]? = some e →
      ∃ v, scorer (calls + i) e.Skill e.MetricValue = .ok v) :
    (scoredEvents scorer calls events).map Prod.fst = events := by
  induction events generalizing calls with
  | nil => simp [scoredEvents]
  | cons a rest ih =>
    obtain ⟨v, hv⟩ := hok 0 a (by simp)
    rw [Nat.add_zero] at hv
    have hrest : ∀ i e, rest[i]? = some e →
        ∃ v, scorer (calls + 1 + i) e.Skill e.MetricValue = .ok v := by
      intro i e hi
      have h := hok (i + 1) e (by simpa using hi)
      have hidx : calls + (i + 1) = calls + 1 + i := by omega
      rw [hidx] at h
      exact h
    simp only [scoredEvents, hv, List.map_cons, ih (calls + 1) hrest]

/-! ### C10 -/

/-- C10. End to end: submit events with pairwise distinct ids to a fresh
service, run one processing cycle whose limit is at least the number of events
with a scorer that succeeds on every event of the list (the `i`-th event being
scored by the `i`-th call; on other arguments the scorer may fail), then
rebuild once. Then every event has been scored; every talent whose maximum computed score `m` is positive is
found by `GetTalentRank` with best score `m` and a rank of at least 1; the
ranked talents are exactly those with a positive computed score; and
`GetTopTalents` returns the leading entries of a leaderboard that is in
descending score order with ranks 1, 2, 3, ... -/
theorem end_to_end_ranking (rt : GoRuntime) (hrt : rt.Valid) (scorer : Scorer)
    (events : List ScoreEvent)
    (hok : ∀ i e, events[i]? = some e → ∃ v, scorer i e.Skill e.MetricValue = .ok v)
    (hnd : (events.map (fun e => e.EventID)).Nodup) (limit : Int)
    (hlimit : (events.length : Int) ≤ limit) :
    (scoredEvents scorer 0 events).map Prod.fst = events ∧
      (∀ t m, IsMaxScore (computedScores scorer events t) m → 0 < m →
        ∃ e, Service.GetTalentRank (endToEnd rt scorer limit events) t =
            some ((e, none), endToEnd rt scorer limit events) ∧
          e.TalentID = t ∧ e.TalentScore.Score = m ∧ 1 ≤ e.Rank) ∧
      (∀ t, (∃ e ∈ (endToEnd rt scorer limit events).storage.leaderboard, e.TalentID = t) ↔
        ∃ x ∈ computedScores scorer events t, 0 < x.Score) ∧
      (∀ limit2 : Int, 0 < limit2 →
        Service.GetTopTalents (endToEnd rt scorer limit events) limit2 =
          some (((endToEnd rt scorer limit events).storage.leaderboard.take
            (min limit2.toNat (endToEnd rt scorer limit events).storage.leaderboard.length),
              none), endToEnd rt scorer limit events)) ∧
      (endToEnd rt scorer limit events).storage.leaderboard.Pairwise
        (fun a b => a.TalentScore.Score ≥ b.TalentScore.Score) ∧
      (∀ i e, (endToEnd rt scorer limit events).storage.leaderboard[i]? = some e →
        e.Rank = i + 1) := by
  have hreach : StorageReachable
      (Service.processCycle scorer limit (submitAll NewService events)).storage :=
    serviceReachable_storage _
      (ServiceReachable.processCycle _ _ _ (submitAll_reachable _ _ ServiceReachable.init))
  have hk := (storageReachable_inv _ hreach).1
  have hW : StorageReachable (endToEnd rt scorer limit events).storage :=
    serviceReachable_storage _ (endToEnd_reachable rt hrt scorer limit events)
  have hsc := scoresOf_processed_fresh scorer limit events hnd hlimit
  have hranked : ∀ t,
      (∃ e ∈ (endToEnd rt scorer limit events).storage.leaderboard, e.TalentID = t) ↔
        ∃ x ∈ computedScores scorer events t, 0 < x.Score := by
    intro t
    rw [← hsc t]
    exact refresh_ranked_iff rt hrt _ hk t
  have hall : (scoredEvents scorer 0 events).map Prod.fst = events :=
    scoredEvents_all_of_batch scorer 0 events (fun i e hi => by
      rw [Nat.zero_add]
      exact hok i e hi)
  refine ⟨hall, ?_, hranked, ?_, ?_, ?_⟩
  · intro t m hm hpos
    obtain ⟨⟨x, hx, hxm⟩, hmax⟩ := hm
    obtain ⟨e, he, het⟩ := (hranked t).2 ⟨x, hx, by omega⟩
    obtain ⟨h1, h2⟩ := getTalentRank_of_mem _ hW e he
    obtain ⟨h3, _, h5⟩ := refresh_entry rt hrt _ hk e he
    rw [het, hsc t] at h3 h5
    rw [het] at h1
    refine ⟨e, h1, het, ?_, h2⟩
    have a1 := hmax _ h3
    have a2 := h5 x hx
    omega
  · intro limit2 hl2
    exact (getTopTalents_pos _ limit2 hl2).2
  · exact refresh_sorted rt hrt _
  · exact refresh_rank rt _

theorem end_to_end_ranking_witness :
    (testEvents.map (fun e => e.EventID)).Nodup ∧ ((testEvents.length : Int) ≤ 10) ∧
      (Service.GetTalentRank (endToEnd stdRuntime LinearScorer 10 testEvents) "talent-1").map
          (fun r => (r.1.1.TalentScore.Score, r.1.1.Rank, r.1.2)) = some (80, 1, none) ∧
      (Service.GetTopTalents (endToEnd stdRuntime LinearScorer 10 testEvents) 10).map
          (fun r => r.1.1.map (fun e => (e.TalentID, e.TalentScore.Score, e.Rank))) =
        some [("talent-1", 80, 1), ("talent-3", 70, 2), ("talent-2", 60, 3)] ∧
      (∀ t m, IsMaxScore (computedScores LinearScorer testEvents t) m → 0 < m →
        ∃ e, Service.GetTalentRank (endToEnd stdRuntime LinearScorer 10 testEvents) t =
            some ((e, none), endToEnd stdRuntime LinearScorer 10 testEvents) ∧
          e.TalentID = t ∧ e.TalentScore.Score = m ∧ 1 ≤ e.Rank) :=
  ⟨by decide, by decide, by decide, by decide,
    (end_to_end_ranking stdRuntime stdRuntime_valid LinearScorer testEvents
      (fun _ e _ => ⟨e.MetricValue, rfl⟩) (by decide) 10 (by decide)).2.1⟩

/-! ### What `ConsumeScoreEvents` returns -/

theorem consumeLoop_eq (p : List (String × Bool)) (limit : Int) (l acc : List ScoreEvent)
    (hacc : acc.length < max 1 limit.toNat) :
    consumeLoop p limit l acc =
      acc ++ (l.filter (fun e => !(mapIndex false p e.EventID))).take
        (max 1 limit.toNat - acc.length) := by
  induction l generalizing acc with
  | nil => simp [consumeLoop]
  | cons e rest ih =>
    by_cases h : mapIndex false p e.EventID = true
    · simp only [consumeLoop, h, Bool.not_true, Bool.false_eq_true, if_false]
      rw [ih acc hacc]
      simp [h]
    · have hf : mapIndex false p e.EventID = false := by simpa using h
      have hfil : (e :: rest).filter (fun e => !(mapIndex false p e.EventID)) =
          e :: rest.filter (fun e => !(mapIndex false p e.EventID)) := by
        simp [hf]
      by_cases hge : ((acc ++ [e]).length : Int) ≥ limit
      · simp only [consumeLoop, hf, Bool.not_false, if_true, hge]
        have h1 : max 1 limit.toNat - acc.length = 1 := by
          simp only [List.length_append, List.length_cons, List.length_nil] at hge
          omega
        rw [hfil, h1]
        simp
      · simp only [consumeLoop, hf, Bool.not_false, if_true, hge, if_false]
        have hlen : (acc ++ [e]).length < max 1 limit.toNat := by
          simp only [List.length_append, List.length_cons, List.length_nil] at hge ⊢
          omega
        rw [ih (acc ++ [e]) hlen, hfil]
        have h1 : max 1 limit.toNat - acc.length =
            (max 1 limit.toNat - (acc ++ [e]).length) + 1 := by
          simp only [List.length_append, List.length_cons, List.length_nil] at hlen ⊢
          omega
        rw [h1, List.take_succ_cons]
        simp

theorem consumeScoreEvents_eq (s : InMemStorage) (limit : Int) :
    ConsumeScoreEvents s limit = (((unprocessedOf s).take (max 1 limit.toNat), none), s) := by
  unfold ConsumeScoreEvents unprocessedOf
  rw [consumeLoop_eq s.processedEvents limit s.scoreEvents [] (by simp)]
  simp

theorem consumeScoreEvents_length_le (s : InMemStorage) (limit : Int) (hl : 1 ≤ limit) :
    ((ConsumeScoreEvents s limit).1.1.length : Int) ≤ limit := by
  rw [consumeScoreEvents_eq]
  simp only [List.length_take]
  omega

/-! ### C11 -/

/-- C11. For every limit of at least 1, `ConsumeScoreEvents` returns, without
error and without changing the store, exactly the first `min limit k` events
of the log that are not marked processed, in log order, `k` being the number
of unprocessed events of the log. -/
theorem ConsumeScoreEvents_first_unprocessed (s : InMemStorage) (limit : Int) (hl : 1 ≤ limit) :
    ConsumeScoreEvents s limit =
      (((unprocessedOf s).take (min limit.toNat (unprocessedOf s).length), none), s) := by
  rw [consumeScoreEvents_eq]
  have h : (unprocessedOf s).take (max 1 limit.toNat) =
      (unprocessedOf s).take (min limit.toNat (unprocessedOf s).length) := by
    rw [List.take_eq_take]
    omega
  rw [h]

theorem ConsumeScoreEvents_first_unprocessed_witness :
    (1 : Int) ≤ 2 ∧
      (ConsumeScoreEvents testSubmitted 2).1.1.map (fun e => e.EventID) = ["event-1", "event-2"] ∧
      ConsumeScoreEvents testSubmitted 2 =
        (((unprocessedOf testSubmitted).take
          (min (2 : Int).toNat (unprocessedOf testSubmitted).length), none), testSubmitted) :=
  ⟨by decide, by decide, ConsumeScoreEvents_first_unprocessed testSubmitted 2 (by decide)⟩

/-! ### C12 -/

/-- C12 fails at limit 0. On a store holding the single unprocessed event
`event-1`, `ConsumeScoreEvents` with limit 0 returns that event: the loop
tests `len(unprocessed) >= limit` only after appending, so the returned
sequence has length 1, which is more than the limit. -/
theorem ConsumeScoreEvents_limit_zero_returns_one :
    (ConsumeScoreEvents pendingStore 0).1 =
        ([⟨"event-1", "talent-1", SkillDribble, 50, 0⟩], none) ∧
      ¬ (((ConsumeScoreEvents pendingStore 0).1.1.length : Int) ≤ 0) := by
  constructor
  · decide
  · decide

/-! ### The event log and the dedup set -/

theorem mapStore_of_lookup_none {κ ν : Type} [DecidableEq κ] (m : List (κ × ν)) (k : κ) (v : ν)
    (h : mapLookup m k = none) : mapStore m k v = m ++ [(k, v)] := by
  induction m with
  | nil => simp [mapStore]
  | cons q m ih =>
    obtain ⟨k1, v1⟩ := q
    by_cases h1 : k1 = k
    · simp [mapLookup, h1] at h
    · simp only [mapLookup, h1, if_false] at h
      simp only [mapStore, h1, if_false, ih h, List.cons_append]

theorem mapStore_of_lookup_some {κ ν : Type} [DecidableEq κ] (m : List (κ × ν)) (k : κ) (v : ν)
    (h : mapLookup m k = some v) : mapStore m k v = m := by
  induction m with
  | nil => simp [mapLookup] at h
  | cons q m ih =>
    obtain ⟨k1, v1⟩ := q
    by_cases h1 : k1 = k
    · simp only [mapLookup, h1, if_true, Option.some.injEq] at h
      simp only [mapStore, h1, if_true, h]
    · simp only [mapLookup, h1, if_false] at h
      simp only [mapStore, h1, if_false, ih h]

theorem mapLookup_seen (l : List ScoreEvent) (id : String) :
    mapLookup (l.map (fun e => (e.EventID, true))) id =
      if id ∈ l.map (fun e => e.EventID) then some true else none := by
  induction l with
  | nil => simp [mapLookup]
  | cons e l ih =>
    by_cases h : e.EventID = id
    · simp [mapLookup, h]
    · have h2 : ¬ id = e.EventID := fun q => h q.symm
      simp only [List.map_cons, mapLookup, h, if_false, ih, List.mem_cons, h2, false_or]

theorem storageReachable_events (s : InMemStorage) (h : StorageReachable s) :
    (s.scoreEvents.map (fun e => e.EventID)).Nodup ∧
      s.eventIDs = s.scoreEvents.map (fun e => (e.EventID, true)) := by
  induction h with
  | init => simp [NewInMemStorage]
  | saveScoreEvent s event _ ih =>
    obtain ⟨hnd, hids⟩ := ih
    by_cases hseen : mapIndex false s.eventIDs event.EventID = true
    · simp only [SaveScoreEvent, hseen, if_true]
      exact ⟨hnd, hids⟩
    · simp only [SaveScoreEvent, hseen, Bool.false_eq_true, if_false]
      have hnot : event.EventID ∉ s.scoreEvents.map (fun e => e.EventID) := by
        intro hin
        apply hseen
        unfold mapIndex
        rw [hids, mapLookup_seen]
        simp [hin]
      have hnone : mapLookup s.eventIDs event.EventID = none := by
        rw [hids, mapLookup_seen]
        simp [hnot]
      refine ⟨?_, ?_⟩
      · rw [List.map_append]
        refine List.Nodup.append hnd (List.nodup_singleton _) ?_
        intro id h1 h2
        simp only [List.map_cons, List.map_nil, List.mem_singleton] at h2
        subst h2
        exact hnot h1
      · rw [mapStore_of_lookup_none _ _ _ hnone, hids]
        simp
  | consumeScoreEvents s limit _ ih => exact ih
  | markScoreEventsAsProcessed s events _ ih => exact ih
  | saveTalentScore s talentScore _ ih => exact ih
  | refreshLeaderboard rt s hrt _ ih => exact ih

/-! ### C16 -/

/-- C16. In every store reachable from a fresh one by the store's methods
(`SaveScoreEvent`, `ConsumeScoreEvents`, `MarkScoreEventsAsProcessed` and the
others) no two events of the log share an `EventID`, and the dedup set holds
exactly the event ids of the log: an id reads as seen exactly when an event
of the log carries it, and the keys of the set are the ids of the log. -/
theorem event_identity_unique (s : InMemStorage) (hs : StorageReachable s) :
    (s.scoreEvents.map (fun e => e.EventID)).Nodup ∧
      (∀ id, mapIndex false s.eventIDs id = true ↔ id ∈ s.scoreEvents.map (fun e => e.EventID)) ∧
      s.eventIDs.map Prod.fst = s.scoreEvents.map (fun e => e.EventID) := by
  obtain ⟨hnd, hids⟩ := storageReachable_events s hs
  refine ⟨hnd, ?_, ?_⟩
  · intro id
    unfold mapIndex
    rw [hids, mapLookup_seen]
    split <;> simp_all
  · rw [hids]
    simp [List.map_map, Function.comp_def]

theorem event_identity_unique_witness :
    StorageReachable duplicateWorld.storage ∧
      duplicateWorld.storage.scoreEvents.map (fun e => e.EventID) = ["event-1"] ∧
      ((duplicateWorld.storage.scoreEvents.map (fun e => e.EventID)).Nodup ∧
        (∀ id, mapIndex false duplicateWorld.storage.eventIDs id = true ↔
          id ∈ duplicateWorld.storage.scoreEvents.map (fun e => e.EventID)) ∧
        duplicateWorld.storage.eventIDs.map Prod.fst =
          duplicateWorld.storage.scoreEvents.map (fun e => e.EventID)) :=
  ⟨serviceReachable_storage _ duplicateWorld_reachable, by decide,
    event_identity_unique duplicateWorld.storage
      (serviceReachable_storage _ duplicateWorld_reachable)⟩

/-! ### C17 -/

/-- C17. `SaveTalentScore` is append-only: it returns no error, the score list
of the record's talent becomes the old list with the record appended at the
end, the score list of every other talent is unchanged, and the event log, the
dedup set, the processed set, the leaderboard and the index are unchanged. -/
theorem SaveTalentScore_append_only (s : InMemStorage) (talentScore : TalentScore) :
    (SaveTalentScore s talentScore).1 = none ∧
      scoresOf (SaveTalentScore s talentScore).2 talentScore.TalentID =
        scoresOf s talentScore.TalentID ++ [talentScore] ∧
      (∀ t, t ≠ talentScore.TalentID →
        scoresOf (SaveTalentScore s talentScore).2 t = scoresOf s t) ∧
      (SaveTalentScore s talentScore).2.scoreEvents = s.scoreEvents ∧
      (SaveTalentScore s talentScore).2.eventIDs = s.eventIDs ∧
      (SaveTalentScore s talentScore).2.processedEvents = s.processedEvents ∧
      (SaveTalentScore s talentScore).2.leaderboard = s.leaderboard ∧
      (SaveTalentScore s talentScore).2.talentLeaderboardIndex = s.talentLeaderboardIndex := by
  refine ⟨rfl, ?_, ?_, rfl, rfl, rfl, rfl, rfl⟩
  · rw [scoresOf_saveTalentScore]
    simp
  · intro t ht
    rw [scoresOf_saveTalentScore]
    have : ¬ talentScore.TalentID = t := fun q => ht q.symm
    simp [this]

/-! ### Marking events as processed -/

theorem unprocessedOf_mark (s : InMemStorage) (events : List ScoreEvent) :
    unprocessedOf (MarkScoreEventsAsProcessed s events).2 =
      (unprocessedOf s).filter (fun e => decide (e.EventID ∉ events.map (fun x => x.EventID))) := by
  unfold unprocessedOf
  simp only [MarkScoreEventsAsProcessed]
  rw [List.filter_filter]
  apply List.filter_congr
  intro e _
  have h := mapIndex_markLoop s.processedEvents events e.EventID
  by_cases h1 : mapIndex false s.processedEvents e.EventID = true
  · have h2 := h.2 (Or.inl h1)
    simp [h1, h2]
  · by_cases h3 : e.EventID ∈ events.map (fun x => x.EventID)
    · have h2 := h.2 (Or.inr h3)
      simp only [h2, Bool.not_true]
      simp only [List.mem_map] at h3
      simp [h3]
    · have h2 : ¬ mapIndex false (markLoop s.processedEvents events) e.EventID = true := by
        intro q
        rcases h.1 q with q | q
        · exact h1 q
        · exact h3 q
      have h1f : mapIndex false s.processedEvents e.EventID = false := by simpa using h1
      have h2f : mapIndex false (markLoop s.processedEvents events) e.EventID = false := by
        simpa using h2
      simp only [h1f, h2f, Bool.not_false]
      simp only [List.mem_map] at h3
      simp [h3]

theorem markLoop_lookup (p : List (String × Bool)) (events : List ScoreEvent) :
    ∀ e ∈ events, mapLookup (markLoop p events) e.EventID = some true := by
  induction events generalizing p with
  | nil => simp
  | cons a rest ih =>
    intro e he
    simp only [markLoop]
    rcases List.mem_cons.1 he with he | he
    · subst he
      by_cases hin : e ∈ rest
      · exact ih _ e hin
      · by_cases hid : e.EventID ∈ rest.map (fun x => x.EventID)
        · obtain ⟨x, hx, hxid⟩ := List.mem_map.1 hid
          rw [← hxid]
          exact ih _ x hx
        · have key : ∀ (q : List (String × Bool)) (l : List ScoreEvent),
              e.EventID ∉ l.map (fun x => x.EventID) →
              mapLookup (markLoop q l) e.EventID = mapLookup q e.EventID := by
            intro q l
            induction l generalizing q with
            | nil => intro _; rfl
            | cons b l ihl =>
              intro hb
              simp only [List.map_cons, List.mem_cons, not_or] at hb
              simp only [markLoop]
              rw [ihl _ hb.2, mapLookup_mapStore]
              have : ¬ b.EventID = e.EventID := fun q => hb.1 q.symm
              simp [this]
          rw [key _ _ hid, mapLookup_mapStore]
          simp
    · exact ih _ e he

theorem markLoop_fixed (p : List (String × Bool)) (events : List ScoreEvent)
    (h : ∀ e ∈ events, mapLookup p e.EventID = some true) : markLoop p events = p := by
  induction events with
  | nil => rfl
  | cons a rest ih =>
    simp only [markLoop]
    rw [mapStore_of_lookup_some _ _ _ (h a (List.mem_cons_self _ _))]
    exact ih (fun e he => h e (List.mem_cons_of_mem _ he))

/-! ### C13 -/

/-- C13, as stated, fails in its clause on the events outside the list. On the
six submitted test events, `ConsumeScoreEvents` with limit 1 returns `event-1`.
After `event-1` is marked processed the same call returns `event-2`, whose id
is not in the marked list and which was not returned before: the unlisted
events returned after the call are not those returned before it. -/
theorem unlisted_event_newly_returned :
    (ConsumeScoreEvents testSubmitted 1).1.1.map (fun e => e.EventID) = ["event-1"] ∧
      (ConsumeScoreEvents
          (MarkScoreEventsAsProcessed testSubmitted
            [⟨"event-1", "talent-1", SkillDribble, 50, 0⟩]).2 1).1.1.map
          (fun e => e.EventID) = ["event-2"] ∧
      "event-2" ∉ [("event-1" : String)] ∧
      ¬ ((ConsumeScoreEvents
            (MarkScoreEventsAsProcessed testSubmitted
              [⟨"event-1", "talent-1", SkillDribble, 50, 0⟩]).2 1).1.1.filter
            (fun e => decide (e.EventID ∉ [("event-1" : String)])) =
          (ConsumeScoreEvents testSubmitted 1).1.1.filter
            (fun e => decide (e.EventID ∉ [("event-1" : String)]))) := by
  refine ⟨by decide, by decide, by decide, by decide⟩

/-- C13, amended. `MarkScoreEventsAsProcessed` returns no error and touches
only the processed set. Afterwards no event whose id occurs in the given list
is returned by `ConsumeScoreEvents`, whatever the limit; the processed flag of
every other id is as before, so the unprocessed events of the log are the
earlier ones without those of the list, in the same order;
`ConsumeScoreEvents` returns a leading segment of them, and with a limit that
covers the log it returns what it returned before minus the events of the
list; and the same call applied a second time leaves the store unchanged. -/
theorem MarkScoreEventsAsProcessed_idempotent (s : InMemStorage) (events : List ScoreEvent) :
    (MarkScoreEventsAsProcessed s events).1 = none ∧
      (MarkScoreEventsAsProcessed s events).2.scoreEvents = s.scoreEvents ∧
      (MarkScoreEventsAsProcessed s events).2.eventIDs = s.eventIDs ∧
      (MarkScoreEventsAsProcessed s events).2.talentScores = s.talentScores ∧
      (MarkScoreEventsAsProcessed s events).2.leaderboard = s.leaderboard ∧
      (MarkScoreEventsAsProcessed s events).2.talentLeaderboardIndex =
        s.talentLeaderboardIndex ∧
      (∀ limit, ∀ e ∈ (ConsumeScoreEvents (MarkScoreEventsAsProcessed s events).2 limit).1.1,
        e.EventID ∉ events.map (fun x => x.EventID)) ∧
      (∀ id, id ∉ events.map (fun x => x.EventID) →
        (mapIndex false (MarkScoreEventsAsProcessed s events).2.processedEvents id = true ↔
          mapIndex false s.processedEvents id = true)) ∧
      unprocessedOf (MarkScoreEventsAsProcessed s events).2 =
        (unprocessedOf s).filter
          (fun e => decide (e.EventID ∉ events.map (fun x => x.EventID))) ∧
      (∀ limit, (ConsumeScoreEvents (MarkScoreEventsAsProcessed s events).2 limit).1 =
        (((unprocessedOf s).filter
          (fun e => decide (e.EventID ∉ events.map (fun x => x.EventID)))).take
            (max 1 limit.toNat), none)) ∧
      (∀ limit : Int, (s.scoreEvents.length : Int) ≤ limit →
        (ConsumeScoreEvents (MarkScoreEventsAsProcessed s events).2 limit).1.1 =
          (ConsumeScoreEvents s limit).1.1.filter
            (fun e => decide (e.EventID ∉ events.map (fun x => x.EventID)))) ∧
      MarkScoreEventsAsProcessed (MarkScoreEventsAsProcessed s events).2 events =
        (none, (MarkScoreEventsAsProcessed s events).2) := by
  refine ⟨rfl, rfl, rfl, rfl, rfl, rfl, ?_, ?_, unprocessedOf_mark s events, ?_, ?_, ?_⟩
  · intro limit e he
    rw [consumeScoreEvents_eq, unprocessedOf_mark] at he
    have h2 := (List.mem_filter.1 (List.mem_of_mem_take he)).2
    simpa using h2
  · intro id hid
    simp only [MarkScoreEventsAsProcessed]
    rw [mapIndex_markLoop]
    constructor
    · rintro (h | h)
      · exact h
      · exact absurd h hid
    · intro h
      exact Or.inl h
  · intro limit
    rw [consumeScoreEvents_eq, unprocessedOf_mark]
  · intro limit hlim
    rw [consumeScoreEvents_eq, consumeScoreEvents_eq, unprocessedOf_mark]
    have h1 : (unprocessedOf s).length ≤ max 1 limit.toNat := by
      have := List.length_filter_le
        (fun e => !(mapIndex false s.processedEvents e.EventID)) s.scoreEvents
      unfold unprocessedOf
      omega
    have h2 : ((unprocessedOf s).filter
        (fun e => decide (e.EventID ∉ events.map (fun x => x.EventID)))).length ≤
        max 1 limit.toNat :=
      (List.length_filter_le _ _).trans h1
    simp only [List.take_of_length_le h1, List.take_of_length_le h2]
  · simp only [MarkScoreEventsAsProcessed]
    rw [markLoop_fixed _ events (markLoop_lookup s.processedEvents events)]

/-! ### C14 -/

/-- C14, as stated, fails. On a fresh store the id `event-1` is marked
processed before any event with that id was submitted; the event is then
submitted and accepted, and it is in the log, but `ConsumeScoreEvents` with
limit 10 returns nothing, whereas without the marking it returns the event. -/
theorem marking_unknown_id_hides_later_event :
    (SaveScoreEvent
        (MarkScoreEventsAsProcessed NewInMemStorage
          [⟨"event-1", "talent-1", SkillDribble, 50, 0⟩]).2
        ⟨"event-1", "talent-1", SkillDribble, 50, 0⟩).1 = (true, none) ∧
      premarkedStore.scoreEvents = [⟨"event-1", "talent-1", SkillDribble, 50, 0⟩] ∧
      (ConsumeScoreEvents premarkedStore 10).1 = ([], none) ∧
      (ConsumeScoreEvents pendingStore 10).1 =
        ([⟨"event-1", "talent-1", SkillDribble, 50, 0⟩], none) := by
  refine ⟨by decide, by decide, by decide, by decide⟩

/-- C14, amended. Marking an id that is neither in the log nor in the dedup
set returns no error and changes nothing but the processed set, and
`ConsumeScoreEvents` returns what it returned before. The id is recorded as
processed all the same: a later `SaveScoreEvent` of an event with that id is
accepted and appended to the log, but the event reads as processed and no
`ConsumeScoreEvents` returns it, whatever the limit. -/
theorem MarkScoreEventsAsProcessed_unknown_id (s : InMemStorage) (event event2 : ScoreEvent)
    (hlog : ∀ e ∈ s.scoreEvents, e.EventID ≠ event.EventID)
    (hseen : mapIndex false s.eventIDs event.EventID = false)
    (hid : event2.EventID = event.EventID) :
    (MarkScoreEventsAsProcessed s [event]).1 = none ∧
      (MarkScoreEventsAsProcessed s [event]).2.scoreEvents = s.scoreEvents ∧
      (MarkScoreEventsAsProcessed s [event]).2.eventIDs = s.eventIDs ∧
      (∀ limit, (ConsumeScoreEvents (MarkScoreEventsAsProcessed s [event]).2 limit).1 =
        (ConsumeScoreEvents s limit).1) ∧
      (SaveScoreEvent (MarkScoreEventsAsProcessed s [event]).2 event2).1 = (true, none) ∧
      (SaveScoreEvent (MarkScoreEventsAsProcessed s [event]).2 event2).2.scoreEvents =
        s.scoreEvents ++ [event2] ∧
      mapIndex false
        (SaveScoreEvent (MarkScoreEventsAsProcessed s [event]).2 event2).2.processedEvents
        event2.EventID = true ∧
      ∀ limit, event2 ∉
        (ConsumeScoreEvents
          (SaveScoreEvent (MarkScoreEventsAsProcessed s [event]).2 event2).2 limit).1.1 := by
  have hproc : mapIndex false
      (SaveScoreEvent (MarkScoreEventsAsProcessed s [event]).2 event2).2.processedEvents
      event2.EventID = true := by
    simp [SaveScoreEvent, MarkScoreEventsAsProcessed, hseen, hid, markLoop, mapIndex_mapStore]
  refine ⟨rfl, rfl, rfl, ?_, ?_, ?_, hproc, ?_⟩
  · intro limit
    rw [consumeScoreEvents_eq, consumeScoreEvents_eq, unprocessedOf_mark]
    have h : (unprocessedOf s).filter
        (fun e => decide (e.EventID ∉ [event].map (fun x => x.EventID))) = unprocessedOf s := by
      rw [List.filter_eq_self]
      intro e he
      have := hlog e (List.mem_of_mem_filter he)
      simpa using this
    rw [h]
  · simp [SaveScoreEvent, MarkScoreEventsAsProcessed, hseen, hid]
  · simp [SaveScoreEvent, MarkScoreEventsAsProcessed, hseen, hid]
  · intro limit hmem
    rw [consumeScoreEvents_eq] at hmem
    have h2 := (List.mem_filter.1 (List.mem_of_mem_take hmem)).2
    rw [hproc] at h2
    simp at h2

theorem MarkScoreEventsAsProcessed_unknown_id_witness :
    (∀ e ∈ NewInMemStorage.scoreEvents, e.EventID ≠ "event-1") ∧
      mapIndex false NewInMemStorage.eventIDs "event-1" = false ∧
      (SaveScoreEvent
        (MarkScoreEventsAsProcessed NewInMemStorage
          [⟨"event-1", "talent-1", SkillDribble, 50, 0⟩]).2
        ⟨"event-1", "talent-2", SkillPass, 7, 1⟩).1 = (true, none) ∧
      ∀ limit, (⟨"event-1", "talent-2", SkillPass, 7, 1⟩ : ScoreEvent) ∉
        (ConsumeScoreEvents
          (SaveScoreEvent
            (MarkScoreEventsAsProcessed NewInMemStorage
              [⟨"event-1", "talent-1", SkillDribble, 50, 0⟩]).2
            ⟨"event-1", "talent-2", SkillPass, 7, 1⟩).2 limit).1.1 :=
  have h := MarkScoreEventsAsProcessed_unknown_id NewInMemStorage
    ⟨"event-1", "talent-1", SkillDribble, 50, 0⟩ ⟨"event-1", "talent-2", SkillPass, 7, 1⟩
    (by decide) (by decide) rfl
  ⟨by decide, by decide, h.2.2.2.2.1, h.2.2.2.2.2.2.2⟩

/-! ### The records one cycle appends -/

theorem newScores_ids (scorer : Scorer) (calls : Nat) (l : List ScoreEvent) :
    ((scoredEvents scorer calls l).map toTalentScore).map (fun x => x.EventID) =
      ((scoredEvents scorer calls l).map Prod.fst).map (fun e => e.EventID) := by
  simp [List.map_map, Function.comp_def, toTalentScore]

theorem newScores_filter_nil (scorer : Scorer) (calls : Nat) (l : List ScoreEvent) (id : String)
    (hid : id ∉ l.map (fun e => e.EventID)) :
    ((scoredEvents scorer calls l).map toTalentScore).filter (fun x => x.EventID = id) = [] := by
  rw [List.filter_eq_nil_iff]
  intro x hx hxid
  have hxid2 : x.EventID = id := by simpa using hxid
  have h1 : x.EventID ∈ ((scoredEvents scorer calls l).map toTalentScore).map
      (fun x => x.EventID) := List.mem_map.2 ⟨x, hx, rfl⟩
  rw [newScores_ids] at h1
  obtain ⟨e, he, heid⟩ := List.mem_map.1 h1
  have h2 := (scoredEvents_sublist scorer calls l).subset he
  apply hid
  rw [← hxid2, ← heid]
  exact List.mem_map.2 ⟨e, h2, rfl⟩

theorem newScores_of_ok (scorer : Scorer) (calls : Nat) (l : List ScoreEvent)
    (hnd : (l.map (fun e => e.EventID)).Nodup) (i : Nat) (e : ScoreEvent) (v : Int)
    (hi : l[i]? = some e) (hok : scorer (calls + i) e.Skill e.MetricValue = .ok v) :
    ((scoredEvents scorer calls l).map toTalentScore).filter (fun x => x.EventID = e.EventID) =
      [toTalentScore (e, v)] := by
  induction l generalizing calls i with
  | nil => simp at hi
  | cons a l ih =>
    simp only [List.map_cons, List.nodup_cons] at hnd
    cases i with
    | zero =>
      simp only [List.getElem?_cons_zero, Option.some.injEq] at hi
      subst hi
      simp only [Nat.add_zero] at hok
      simp only [scoredEvents, hok, List.map_cons]
      rw [List.filter_cons_of_pos (by simp [toTalentScore]),
        newScores_filter_nil scorer (calls + 1) l a.EventID hnd.1]
    | succ j =>
      simp only [List.getElem?_cons_succ] at hi
      have hne : ¬ a.EventID = e.EventID := by
        intro q
        apply hnd.1
        rw [q]
        exact List.mem_map.2 ⟨e, List.getElem?_mem hi, rfl⟩
      have hok2 : scorer (calls + 1 + j) e.Skill e.MetricValue = .ok v := by
        have : calls + 1 + j = calls + (j + 1) := by omega
        rw [this]
        exact hok
      have h := ih (calls + 1) hnd.2 j hi hok2
      cases hsc : scorer calls a.Skill a.MetricValue with
      | error msg =>
        simp only [scoredEvents, hsc]
        exact h
      | ok w =>
        simp only [scoredEvents, hsc, List.map_cons]
        rw [List.filter_cons_of_neg (by simpa [toTalentScore] using hne)]
        exact h

theorem newScores_of_error (scorer : Scorer) (calls : Nat) (l : List ScoreEvent)
    (hnd : (l.map (fun e => e.EventID)).Nodup) (i : Nat) (e : ScoreEvent) (msg : String)
    (hi : l[i]? = some e) (herr : scorer (calls + i) e.Skill e.MetricValue = .error msg) :
    ((scoredEvents scorer calls l).map toTalentScore).filter (fun x => x.EventID = e.EventID) =
      [] := by
  induction l generalizing calls i with
  | nil => simp at hi
  | cons a l ih =>
    simp only [List.map_cons, List.nodup_cons] at hnd
    cases i with
    | zero =>
      simp only [List.getElem?_cons_zero, Option.some.injEq] at hi
      subst hi
      simp only [Nat.add_zero] at herr
      simp only [scoredEvents, herr]
      exact newScores_filter_nil scorer (calls + 1) l a.EventID hnd.1
    | succ j =>
      simp only [List.getElem?_cons_succ] at hi
      have hne : ¬ a.EventID = e.EventID := by
        intro q
        apply hnd.1
        rw [q]
        exact List.mem_map.2 ⟨e, List.getElem?_mem hi, rfl⟩
      have herr2 : scorer (calls + 1 + j) e.Skill e.MetricValue = .error msg := by
        have : calls + 1 + j = calls + (j + 1) := by omega
        rw [this]
        exact herr
      have h := ih (calls + 1) hnd.2 j hi herr2
      cases hsc : scorer calls a.Skill a.MetricValue with
      | error msg2 =>
        simp only [scoredEvents, hsc]
        exact h
      | ok w =>
        simp only [scoredEvents, hsc, List.map_cons]
        rw [List.filter_cons_of_neg (by simpa [toTalentScore] using hne)]
        exact h

theorem mem_ids_iff_filter (l : List TalentScore) (id : String) :
    id ∈ l.map (fun x => x.EventID) ↔ l.filter (fun x => x.EventID = id) ≠ [] := by
  rw [Ne, List.filter_eq_nil_iff]
  simp only [List.mem_map, decide_eq_true_eq, not_forall, not_not]
  constructor
  · rintro ⟨x, hx, hid⟩
    exact ⟨x, hx, hid⟩
  · rintro ⟨x, hx, hid⟩
    exact ⟨x, hx, hid⟩

theorem processCycle_processed_iff (scorer : Scorer) (limit : Int) (s : InMemStorage)
    (id : String) :
    mapIndex false (processCycle scorer limit s).processedEvents id = true ↔
      mapIndex false s.processedEvents id = true ∨
        id ∈ ((scoredEvents scorer 0 (ConsumeScoreEvents s limit).1.1).map toTalentScore).map
          (fun x => x.EventID) := by
  rw [processCycle_eq, newScores_ids]
  exact mapIndex_markLoop _ _ id

theorem processCycle_scoresOf (scorer : Scorer) (limit : Int) (s : InMemStorage)
    (t : TalentID) :
    scoresOf (processCycle scorer limit s) t =
      scoresOf s t ++
        ((scoredEvents scorer 0 (ConsumeScoreEvents s limit).1.1).map toTalentScore).filter
          (fun x => x.TalentID = t) := by
  rw [processCycle_eq]
  exact scoresOf_saveAll s _ t

theorem processCycle_unprocessedOf (scorer : Scorer) (limit : Int) (s : InMemStorage) :
    unprocessedOf (processCycle scorer limit s) =
      (unprocessedOf s).filter (fun e => decide (e.EventID ∉
        ((scoredEvents scorer 0 (ConsumeScoreEvents s limit).1.1).map toTalentScore).map
          (fun x => x.EventID))) := by
  rw [newScores_ids, ← unprocessedOf_mark, processCycle_eq]
  unfold unprocessedOf
  simp only [MarkScoreEventsAsProcessed, ConsumeScoreEvents]
  rw [(saveAll_frame s _).1]

theorem consume_batch_facts (s : InMemStorage) (hs : StorageReachable s) (limit : Int) :
    ((ConsumeScoreEvents s limit).1.1.map (fun e => e.EventID)).Nodup ∧
      ∀ e ∈ (ConsumeScoreEvents s limit).1.1,
        mapIndex false s.processedEvents e.EventID = false := by
  rw [consumeScoreEvents_eq]
  have hsub : ((unprocessedOf s).take (max 1 limit.toNat)).Sublist s.scoreEvents :=
    (List.take_sublist _ _).trans (List.filter_sublist _)
  refine ⟨(hsub.map _).nodup (storageReachable_events s hs).1, ?_⟩
  intro e he
  have h := (List.mem_filter.1 (List.mem_of_mem_take he)).2
  simpa using h

theorem mem_take_filter_of_mem_take {α : Type} (q : α → Bool) (l : List α) (n : Nat) (a : α)
    (ha : a ∈ l.take n) (hq : q a = true) : a ∈ (l.filter q).take n := by
  have h1 : l.filter q = (l.take n).filter q ++ (l.drop n).filter q := by
    rw [← List.filter_append, List.take_append_drop]
  have h2 : ((l.take n).filter q).length ≤ n :=
    (List.length_filter_le q _).trans (by rw [List.length_take]; omega)
  rw [h1, List.take_append_eq_append_take, List.take_of_length_le h2]
  exact List.mem_append_left _ (List.mem_filter.2 ⟨ha, hq⟩)

/-! ### C15 -/

/-- C15. One processing cycle on a reachable store, over the batch that
`ConsumeScoreEvents` returns, the `i`-th event of the batch being scored by the
`i`-th scorer call. The score list of every talent grows at its end by the new
records of that talent, in batch order. For an event on which the scorer
succeeds with value `v`, exactly one new record carries its event id, namely
`{TalentID, Skill, Score = v, EventID}` copied from the event, and the event
is processed afterwards and never consumed again. For an event on which the
scorer fails, no new record carries its id, the event stays unprocessed and
the next `ConsumeScoreEvents` with the same limit returns it again. The
outcome for one event does not depend on the outcome for the others. -/
theorem processCycle_scores_and_marks (scorer : Scorer) (limit : Int) (s : InMemStorage)
    (hs : StorageReachable s) :
    (processCycle scorer limit s).scoreEvents = s.scoreEvents ∧
      (∀ t, scoresOf (processCycle scorer limit s) t =
        scoresOf s t ++
          ((scoredEvents scorer 0 (ConsumeScoreEvents s limit).1.1).map toTalentScore).filter
            (fun x => x.TalentID = t)) ∧
      (∀ i e v, (ConsumeScoreEvents s limit).1.1[i]? = some e →
        scorer i e.Skill e.MetricValue = .ok v →
          ((scoredEvents scorer 0 (ConsumeScoreEvents s limit).1.1).map toTalentScore).filter
              (fun x => x.EventID = e.EventID) =
            [{ TalentID := e.TalentID, Skill := e.Skill, Score := v, EventID := e.EventID }] ∧
          mapIndex false (processCycle scorer limit s).processedEvents e.EventID = true ∧
          ∀ limit2, e ∉ (ConsumeScoreEvents (processCycle scorer limit s) limit2).1.1) ∧
      (∀ i e msg, (ConsumeScoreEvents s limit).1.1[i]? = some e →
        scorer i e.Skill e.MetricValue = .error msg →
          ((scoredEvents scorer 0 (ConsumeScoreEvents s limit).1.1).map toTalentScore).filter
              (fun x => x.EventID = e.EventID) = [] ∧
          mapIndex false (processCycle scorer limit s).processedEvents e.EventID = false ∧
          e ∈ (ConsumeScoreEvents (processCycle scorer limit s) limit).1.1) := by
  obtain ⟨hnd, hun⟩ := consume_batch_facts s hs limit
  refine ⟨(processCycle_effect scorer limit s).choose_spec.2.2.2.2.1,
    processCycle_scoresOf scorer limit s, ?_, ?_⟩
  · intro i e v hi hok
    have hf := newScores_of_ok scorer 0 _ hnd i e v hi (by rw [Nat.zero_add]; exact hok)
    have hin : e.EventID ∈
        ((scoredEvents scorer 0 (ConsumeScoreEvents s limit).1.1).map toTalentScore).map
          (fun x => x.EventID) := by
      rw [mem_ids_iff_filter, hf]
      simp
    have hp := (processCycle_processed_iff scorer limit s e.EventID).2 (Or.inr hin)
    refine ⟨hf, hp, ?_⟩
    intro limit2 hmem
    rw [consumeScoreEvents_eq] at hmem
    have h2 := (List.mem_filter.1 (List.mem_of_mem_take hmem)).2
    rw [hp] at h2
    simp at h2
  · intro i e msg hi herr
    have hf := newScores_of_error scorer 0 _ hnd i e msg hi (by rw [Nat.zero_add]; exact herr)
    have hnin : e.EventID ∉
        ((scoredEvents scorer 0 (ConsumeScoreEvents s limit).1.1).map toTalentScore).map
          (fun x => x.EventID) := by
      rw [mem_ids_iff_filter, hf]
      simp
    have hbefore := hun e (List.getElem?_mem hi)
    have hp : mapIndex false (processCycle scorer limit s).processedEvents e.EventID = false := by
      cases hc : mapIndex false (processCycle scorer limit s).processedEvents e.EventID with
      | false => rfl
      | true =>
        rcases (processCycle_processed_iff scorer limit s e.EventID).1 hc with h | h
        · rw [hbefore] at h; cases h
        · exact absurd h hnin
    refine ⟨hf, hp, ?_⟩
    have hmem : e ∈ (unprocessedOf s).take (max 1 limit.toNat) := by
      have := List.getElem?_mem hi
      rw [consumeScoreEvents_eq] at this
      exact this
    rw [consumeScoreEvents_eq, processCycle_unprocessedOf]
    exact mem_take_filter_of_mem_take _ _ _ e hmem (by simpa using hnin)

theorem mixedSubmitted_reachable : StorageReachable mixedSubmitted :=
  serviceReachable_storage _ (submitAll_reachable _ _ ServiceReachable.init)

theorem processCycle_scores_and_marks_witness :
    StorageReachable mixedSubmitted ∧
      (ConsumeScoreEvents mixedSubmitted 10).1.1.map (fun e => e.EventID) =
        ["event-1", "event-2", "event-3"] ∧
      allScores (processCycle (WeightBasedScorer mainWeights) 10 mixedSubmitted) =
        [⟨"talent-1", SkillDribble, 50, "event-1"⟩, ⟨"talent-2", SkillPass, 180, "event-3"⟩] ∧
      (ConsumeScoreEvents (processCycle (WeightBasedScorer mainWeights) 10 mixedSubmitted)
        10).1.1.map (fun e => e.EventID) = ["event-2"] ∧
      ∀ t, scoresOf (processCycle (WeightBasedScorer mainWeights) 10 mixedSubmitted) t =
        scoresOf mixedSubmitted t ++
          ((scoredEvents (WeightBasedScorer mainWeights) 0
            (ConsumeScoreEvents mixedSubmitted 10).1.1).map toTalentScore).filter
              (fun x => x.TalentID = t) :=
  ⟨mixedSubmitted_reachable, by decide, by decide, by decide,
    (processCycle_scores_and_marks (WeightBasedScorer mainWeights) 10 mixedSubmitted
      mixedSubmitted_reachable).2.1⟩

/-! ### C18 -/

theorem bestLoop_eq_of_score_le (b : TalentScore) (l : List TalentScore)
    (h : (bestLoop b l).Score ≤ b.Score) : bestLoop b l = b := by
  induction l generalizing b with
  | nil => rfl
  | cons x l ih =>
    by_cases hx : x.Score > b.Score
    · simp only [bestLoop, hx, if_true] at h
      have := (bestLoop_spec x l).2.1
      omega
    · simp only [bestLoop, hx, if_false] at h ⊢
      exact ih b h

theorem bestLoop_first (b : TalentScore) (l : List TalentScore)
    (h : b.Score < (bestLoop b l).Score) :
    l.find? (fun x => decide (x.Score = (bestLoop b l).Score)) = some (bestLoop b l) := by
  induction l generalizing b with
  | nil => simp [bestLoop] at h
  | cons x l ih =>
    by_cases hx : x.Score > b.Score
    · simp only [bestLoop, hx, if_true] at h ⊢
      by_cases heq : x.Score = (bestLoop x l).Score
      · have hb : bestLoop x l = x := bestLoop_eq_of_score_le x l (by omega)
        rw [hb]
        simp
      · have hlt : x.Score < (bestLoop x l).Score := by
          have := (bestLoop_spec x l).2.1
          omega
        rw [List.find?_cons_of_neg _ (by simpa using heq)]
        exact ih x hlt
    · simp only [bestLoop, hx, if_false] at h ⊢
      have hne : ¬ x.Score = (bestLoop b l).Score := by omega
      rw [List.find?_cons_of_neg _ (by simpa using hne)]
      exact ih b h

theorem rankedBest_first {scores : List TalentScore} {b : TalentScore}
    (h : rankedBest scores = some b) :
    scores.find? (fun x => decide (x.Score = b.Score)) = some b := by
  have hpos := (rankedBest_some h).2.1
  unfold rankedBest at h
  split at h
  · cases h
  · injection h with h
    subst h
    exact bestLoop_first TalentScore.zero scores hpos

/-- C20. Tie-break of the maximum: on a reachable store, the score record of
every entry that `refreshLeaderboard` publishes is the first record, in the
order in which the talent's records were appended, whose score value equals
the talent's maximum; that maximum is positive. -/
theorem refreshLeaderboard_first_maximum (rt : GoRuntime) (hrt : rt.Valid) (s : InMemStorage)
    (hs : StorageReachable s) (e : TalentRank)
    (he : e ∈ (refreshLeaderboard rt s).leaderboard) :
    (scoresOf s e.TalentID).find? (fun x => decide (x.Score = e.TalentScore.Score)) =
        some e.TalentScore ∧
      IsMaxScore (scoresOf s e.TalentID) e.TalentScore.Score ∧ 0 < e.TalentScore.Score := by
  have hk := (storageReachable_inv s hs).1
  obtain ⟨p, hp, hb⟩ := (refresh_mem_iff rt hrt s e.TalentScore).1 ⟨e, he, rfl⟩
  obtain ⟨h1, h2, h3⟩ := rankedBest_some hb
  have hid : e.TalentID = p.1 := by
    rw [refresh_talentID rt hrt s e he]
    exact hk.2 p hp _ h1
  rw [hid, scoresOf_of_mem s hk p hp]
  exact ⟨rankedBest_first hb, ⟨⟨e.TalentScore, h1, rfl⟩, h3⟩, h2⟩

theorem tiedStore_reachable : StorageReachable tiedStore :=
  StorageReachable.saveTalentScore _ _
    (StorageReachable.saveTalentScore _ _
      (StorageReachable.saveTalentScore _ _ StorageReachable.init))

theorem refreshLeaderboard_first_maximum_witness :
    StorageReachable tiedStore ∧
      (refreshLeaderboard stdRuntime tiedStore).leaderboard =
        [⟨"talent-1", ⟨"talent-1", SkillDribble, 80, "event-1"⟩, 1⟩] ∧
      (scoresOf tiedStore "talent-1").find? (fun x => decide (x.Score = 80)) =
        some ⟨"talent-1", SkillDribble, 80, "event-1"⟩ :=
  ⟨tiedStore_reachable, by decide,
    (refreshLeaderboard_first_maximum stdRuntime stdRuntime_valid tiedStore tiedStore_reachable
      ⟨"talent-1", ⟨"talent-1", SkillDribble, 80, "event-1"⟩, 1⟩ (by decide)).1⟩

/-! ### Ranked talents have a positive record -/

theorem getTalentRank_of_not_mem (w : World) (hw : StorageReachable w.storage) (t : TalentID)
    (h : ∀ e ∈ w.storage.leaderboard, e.TalentID ≠ t) :
    Service.GetTalentRank w t = some ((TalentRank.zero, some ErrTalentNotFound), w) := by
  obtain ⟨_, hidx, _, _⟩ := storageReachable_inv w.storage hw
  cases hl : mapLookup w.storage.talentLeaderboardIndex t with
  | none => simp [Service.GetTalentRank, FindTalentRank, hl]
  | some i =>
    obtain ⟨e, he, het⟩ := (hidx t i).1 hl
    exact absurd het (h e (List.getElem?_mem he))

theorem storageReachable_entries (s : InMemStorage) (h : StorageReachable s) :
    ∀ e ∈ s.leaderboard, e.TalentScore ∈ scoresOf s e.TalentID ∧ 0 < e.TalentScore.Score := by
  induction h with
  | init => simp [NewInMemStorage]
  | saveScoreEvent s event _ ih =>
    unfold SaveScoreEvent
    split
    · exact ih
    · exact ih
  | consumeScoreEvents s limit _ ih => exact ih
  | markScoreEventsAsProcessed s events _ ih => exact ih
  | saveTalentScore s talentScore _ ih =>
    intro e he
    obtain ⟨h1, h2⟩ := ih e he
    refine ⟨?_, h2⟩
    rw [scoresOf_saveTalentScore]
    split
    · exact List.mem_append_left _ h1
    · exact h1
  | refreshLeaderboard rt s hrt hs _ =>
    intro e he
    obtain ⟨h1, h2, _⟩ := refresh_entry rt hrt s (storageReachable_inv s hs).1 e he
    exact ⟨h1, h2⟩

theorem saveAll_reachable (s : InMemStorage) (l : List TalentScore) (h : StorageReachable s) :
    StorageReachable (saveAll s l) := by
  induction l generalizing s with
  | nil => exact h
  | cons x l ih => exact ih _ (StorageReachable.saveTalentScore s x h)

/-! ### C21 -/

/-- C21. On a world whose store is reachable, every entry of the leaderboard
that `refreshLeaderboard` publishes has a strictly positive best score, and a
talent is ranked exactly when one of its score records has a positive score.
A talent whose records are all zero or negative is not ranked by this rebuild
nor by any earlier one, and `GetTalentRank` reports it as not found, before
and after the rebuild. -/
theorem ranked_iff_positive_score (rt : GoRuntime) (hrt : rt.Valid) (w : World)
    (hw : StorageReachable w.storage) :
    (∀ e ∈ (refreshLeaderboard rt w.storage).leaderboard, 0 < e.TalentScore.Score) ∧
      (∀ t, (∃ e ∈ (refreshLeaderboard rt w.storage).leaderboard, e.TalentID = t) ↔
        ∃ x ∈ scoresOf w.storage t, 0 < x.Score) ∧
      (∀ t, (∀ x ∈ scoresOf w.storage t, x.Score ≤ 0) →
        (∀ e ∈ (refreshLeaderboard rt w.storage).leaderboard, e.TalentID ≠ t) ∧
        Service.GetTalentRank { w with storage := refreshLeaderboard rt w.storage } t =
          some ((TalentRank.zero, some ErrTalentNotFound),
            { w with storage := refreshLeaderboard rt w.storage }) ∧
        (∀ e ∈ w.storage.leaderboard, e.TalentID ≠ t) ∧
        Service.GetTalentRank w t = some ((TalentRank.zero, some ErrTalentNotFound), w)) := by
  have hk := (storageReachable_inv _ hw).1
  have hiff := refresh_ranked_iff rt hrt w.storage hk
  refine ⟨fun e he => (refresh_entry rt hrt _ hk e he).2.1, hiff, ?_⟩
  intro t hall
  have hnew : ∀ e ∈ (refreshLeaderboard rt w.storage).leaderboard, e.TalentID ≠ t := by
    intro e he het
    obtain ⟨x, hx, hpos⟩ := (hiff t).1 ⟨e, he, het⟩
    have := hall x hx
    omega
  have hold : ∀ e ∈ w.storage.leaderboard, e.TalentID ≠ t := by
    intro e he het
    obtain ⟨h1, h2⟩ := storageReachable_entries _ hw e he
    rw [het] at h1
    have := hall _ h1
    omega
  refine ⟨hnew, ?_, hold, getTalentRank_of_not_mem w hw t hold⟩
  exact getTalentRank_of_not_mem { w with storage := refreshLeaderboard rt w.storage }
    (StorageReachable.refreshLeaderboard rt _ hrt hw) t hnew

theorem ranked_iff_positive_score_witness :
    StorageReachable negativeProcessed.storage ∧
      (∀ x ∈ scoresOf negativeProcessed.storage "talent-1", x.Score ≤ 0) ∧
      Service.GetTalentRank
          { negativeProcessed with
            storage := refreshLeaderboard stdRuntime negativeProcessed.storage } "talent-1" =
        some ((TalentRank.zero, some ErrTalentNotFound),
          { negativeProcessed with
            storage := refreshLeaderboard stdRuntime negativeProcessed.storage }) ∧
      ∀ e ∈ (refreshLeaderboard stdRuntime testProcessed.storage).leaderboard,
        0 < e.TalentScore.Score :=
  ⟨serviceReachable_storage _ negativeProcessed_reachable, by decide,
    ((ranked_iff_positive_score stdRuntime stdRuntime_valid negativeProcessed
      (serviceReachable_storage _ negativeProcessed_reachable)).2.2 "talent-1"
        (by decide)).2.1,
    by decide⟩

/-! ### C22 -/

/-- C22. Best scores are monotone across rebuilds: on a reachable store, if a
rebuild ranks a talent with best score `b`, then after any further sequence of
`SaveTalentScore` calls, for any talents, another rebuild still ranks the
talent, with a best score of at least `b`. The two rebuilds may differ in
their run-time choices. -/
theorem best_score_monotone (rt1 rt2 : GoRuntime) (h1 : rt1.Valid) (h2 : rt2.Valid)
    (s : InMemStorage) (hs : StorageReachable s) (l : List TalentScore) (e : TalentRank)
    (he : e ∈ (refreshLeaderboard rt1 s).leaderboard) :
    ∃ e2 ∈ (refreshLeaderboard rt2 (saveAll (refreshLeaderboard rt1 s) l)).leaderboard,
      e2.TalentID = e.TalentID ∧ e.TalentScore.Score ≤ e2.TalentScore.Score := by
  have hk := (storageReachable_inv s hs).1
  obtain ⟨hmem, hpos, _⟩ := refresh_entry rt1 h1 s hk e he
  have hs2 : StorageReachable (saveAll (refreshLeaderboard rt1 s) l) :=
    saveAll_reachable _ l (StorageReachable.refreshLeaderboard rt1 s h1 hs)
  have hk2 := (storageReachable_inv _ hs2).1
  have hmem2 : e.TalentScore ∈ scoresOf (saveAll (refreshLeaderboard rt1 s) l) e.TalentID := by
    rw [scoresOf_saveAll, scoresOf_refresh]
    exact List.mem_append_left _ hmem
  obtain ⟨e2, he2, hid⟩ :=
    (refresh_ranked_iff rt2 h2 _ hk2 e.TalentID).2 ⟨e.TalentScore, hmem2, hpos⟩
  refine ⟨e2, he2, hid, ?_⟩
  have hmax := (refresh_entry rt2 h2 _ hk2 e2 he2).2.2
  rw [hid] at hmax
  exact hmax _ hmem2

theorem best_score_monotone_witness :
    (⟨"talent-2", ⟨"talent-2", SkillPass, 60, "event-3"⟩, 3⟩ : TalentRank) ∈
        (refreshLeaderboard stdRuntime testProcessed.storage).leaderboard ∧
      (refreshLeaderboard stdRuntime
          (saveAll (refreshLeaderboard stdRuntime testProcessed.storage)
            [⟨"talent-2", SkillShoot, 10, "event-7"⟩,
              ⟨"talent-4", SkillShoot, 95, "event-8"⟩])).leaderboard.map
          (fun r => (r.TalentID, r.TalentScore.Score, r.Rank)) =
        [("talent-4", 95, 1), ("talent-1", 80, 2), ("talent-3", 70, 3), ("talent-2", 60, 4)] ∧
      ∃ e2 ∈ (refreshLeaderboard stdRuntime
          (saveAll (refreshLeaderboard stdRuntime testProcessed.storage)
            [⟨"talent-2", SkillShoot, 10, "event-7"⟩,
              ⟨"talent-4", SkillShoot, 95, "event-8"⟩])).leaderboard,
        e2.TalentID = "talent-2" ∧ (60 : Int) ≤ e2.TalentScore.Score :=
  ⟨by decide, by decide,
    best_score_monotone stdRuntime stdRuntime stdRuntime_valid stdRuntime_valid
      testProcessed.storage (serviceReachable_storage _ testProcessed_reachable)
      [⟨"talent-2", SkillShoot, 10, "event-7"⟩, ⟨"talent-4", SkillShoot, 95, "event-8"⟩]
      ⟨"talent-2", ⟨"talent-2", SkillPass, 60, "event-3"⟩, 3⟩ (by decide)⟩

/-! ### Cycles in which every call of the scorer fails -/

theorem scoredEvents_of_all_fail (scorer : Scorer) (l : List ScoreEvent)
    (hfail : ∀ calls, ∀ e ∈ l, ∃ msg, scorer calls e.Skill e.MetricValue = .error msg)
    (calls : Nat) : scoredEvents scorer calls l = [] := by
  induction l generalizing calls with
  | nil => rfl
  | cons a l ih =>
    obtain ⟨msg, hmsg⟩ := hfail calls a (List.mem_cons_self _ _)
    simp only [scoredEvents, hmsg]
    exact ih (fun c e he => hfail c e (List.mem_cons_of_mem _ he)) _

theorem processCycle_of_all_fail (scorer : Scorer) (limit : Int) (s : InMemStorage)
    (hfail : ∀ calls, ∀ e ∈ (ConsumeScoreEvents s limit).1.1,
      ∃ msg, scorer calls e.Skill e.MetricValue = .error msg) :
    processCycle scorer limit s = s := by
  have h := scoredEvents_of_all_fail scorer _ hfail 0
  simp only [ConsumeScoreEvents] at h
  rw [processCycle_eq, h]
  simp only [List.map_nil, saveAll, markLoop]

theorem processCycles_of_fixed (scorer : Scorer) (limit : Int) (s : InMemStorage)
    (h : processCycle scorer limit s = s) (n : Nat) : processCycles scorer limit n s = s := by
  induction n with
  | zero => rfl
  | succ n ih =>
    simp only [processCycles, h]
    exact ih

theorem unprocessed_has_no_score (w : World) (hw : ServiceReachable w) (e : ScoreEvent)
    (he : e ∈ unprocessedOf w.storage) : scoreCount w.storage e.EventID = 0 := by
  obtain ⟨_, _, _, hd, _⟩ := serviceReachable_inv w hw
  have hun : mapIndex false w.storage.processedEvents e.EventID = false := by
    have := (List.mem_filter.1 he).2
    simpa using this
  unfold scoreCount
  rw [List.count_eq_zero]
  intro hin
  obtain ⟨x, hx, hxid⟩ := List.mem_map.1 hin
  have := hd x hx
  rw [hxid, hun] at this
  cases this

/-! ### C23 -/

/-- C23. Head-of-line blocking: let the limit be at least 1 and let the scorer
fail, at every call, on each of the first `limit` unprocessed events of the
log. Then one processing cycle leaves the whole store unchanged (event log,
processed set and Score store included), and so does any number of cycles; on
a reachable world, every unprocessed event of the log, the later ones
included, is therefore still unprocessed after any number of cycles and no
score record carries its event id. -/
theorem head_of_line_blocking (scorer : Scorer) (limit : Int) (w : World) (hl : 1 ≤ limit)
    (hfail : ∀ calls, ∀ e ∈ (unprocessedOf w.storage).take limit.toNat,
      ∃ msg, scorer calls e.Skill e.MetricValue = .error msg) :
    processCycle scorer limit w.storage = w.storage ∧
      Service.processCycle scorer limit w = w ∧
      (∀ n, processCycles scorer limit n w.storage = w.storage) ∧
      (ServiceReachable w → ∀ n, ∀ e ∈ unprocessedOf w.storage,
        e ∈ unprocessedOf (processCycles scorer limit n w.storage) ∧
          scoreCount (processCycles scorer limit n w.storage) e.EventID = 0) := by
  have hmax : max 1 limit.toNat = limit.toNat := by omega
  have h1 : processCycle scorer limit w.storage = w.storage := by
    apply processCycle_of_all_fail
    intro calls e he
    rw [consumeScoreEvents_eq, hmax] at he
    exact hfail calls e he
  have hn := processCycles_of_fixed scorer limit w.storage h1
  refine ⟨h1, ?_, hn, ?_⟩
  · simp only [Service.processCycle, h1]
  · intro hw n e he
    rw [hn n]
    exact ⟨he, unprocessed_has_no_score w hw e he⟩

theorem head_of_line_blocking_witness :
    (1 : Int) ≤ 1 ∧
      (unprocessedOf blockedWorld.storage).map (fun e => e.EventID) = ["event-1", "event-2"] ∧
      (unprocessedOf (processCycles (WeightBasedScorer mainWeights) 1 3
          blockedWorld.storage)).map (fun e => e.EventID) = ["event-1", "event-2"] ∧
      allScores (processCycles (WeightBasedScorer mainWeights) 1 3 blockedWorld.storage) = [] ∧
      ∀ n, processCycles (WeightBasedScorer mainWeights) 1 n blockedWorld.storage =
        blockedWorld.storage :=
  ⟨by decide, by decide, by decide, by decide,
    (head_of_line_blocking (WeightBasedScorer mainWeights) 1 blockedWorld (by decide)
      (by
        intro calls e he
        have hlist : (unprocessedOf blockedWorld.storage).take (1 : Int).toNat =
            [⟨"event-1", "talent-1", "juggle", 80, 0⟩] := by decide
        rw [hlist, List.mem_singleton] at he
        subst he
        exact ⟨_, rfl⟩)).2.2.1⟩

end Cuju
